import Mathlib

/-!
Verification of the `.sanchez` video container format and streaming protocol
(repository `cbx-nz/dotsanchez-videostream`).

The repository's CLI (`sanchez/__main__.py`), package surface
(`sanchez/__init__.py`) and example scripts are embedded directly from source.
The container format (`sanchez/format.py`), frame codec, and streaming module
(`sanchez/streaming.py`) are not part of the available sources; their
behaviour is modelled from the specification (byte layout of §4.2, codec
contract of §4.1, packetization/FEC of §4.5-§4.6), as noted on each
definition.

All machine integers are modelled as `Nat` with explicit bounds; byte
sequences are `List Nat` with elements `< 256`; fallible operations return
`Except SanchezError`.
-/

namespace Sanchez

/-- The error taxonomy of spec §7. -/
inductive SanchezError where
  | InvalidFormat
  | CorruptFrame
  | DimensionMismatch
  | IndexOutOfRange
  | IOError
  | SourceUnreadable
  | SessionDesync
  | Disconnected
  deriving DecidableEq, Repr

instance {ε α : Type} [DecidableEq ε] [DecidableEq α] :
    DecidableEq (Except ε α) := fun a b =>
  match a, b with
  | .error e₁, .error e₂ =>
    if h : e₁ = e₂ then .isTrue (h ▸ rfl)
    else .isFalse fun he => h (Except.error.inj he)
  | .ok a₁, .ok a₂ =>
    if h : a₁ = a₂ then .isTrue (h ▸ rfl)
    else .isFalse fun he => h (Except.ok.inj he)
  | .error _, .ok _ => .isFalse fun he => Except.noConfusion he
  | .ok _, .error _ => .isFalse fun he => Except.noConfusion he

/-! ## Big-endian integers and byte-stream readers -/

/-- Big-endian byte encoding of `v` on `n` bytes (most significant first). -/
def beBytes : Nat → Nat → List Nat
  | 0, _ => []
  | n + 1, v => (v / 256 ^ n) % 256 :: beBytes n (v % 256 ^ n)

/-- Value of a big-endian byte string. -/
def beVal (l : List Nat) : Nat := l.foldl (fun a b => a * 256 + b) 0

theorem beBytes_length (n v : Nat) : (beBytes n v).length = n := by
  induction n generalizing v with
  | zero => rfl
  | succ n ih => simp [beBytes, ih]

theorem beVal_foldl (c : Nat) (l : List Nat) :
    l.foldl (fun a b => a * 256 + b) c = c * 256 ^ l.length + beVal l := by
  induction l generalizing c with
  | nil => simp [beVal]
  | cons x xs ih =>
    simp only [List.foldl_cons, List.length_cons]
    rw [ih (c * 256 + x), show beVal (x :: xs) = List.foldl (fun a b => a * 256 + b) x xs by
      simp [beVal], ih x]
    ring

theorem beVal_cons (b : Nat) (l : List Nat) :
    beVal (b :: l) = b * 256 ^ l.length + beVal l := by
  rw [show beVal (b :: l) = List.foldl (fun a b => a * 256 + b) b l by simp [beVal]]
  rw [beVal_foldl]

/-- Round trip: decoding a big-endian encoding recovers the value. -/
theorem beVal_beBytes (n v : Nat) (h : v < 256 ^ n) : beVal (beBytes n v) = v := by
  induction n generalizing v with
  | zero => simpa [beBytes, beVal] using (Nat.lt_one_iff.mp h).symm
  | succ n ih =>
    have hmod : v % 256 ^ n < 256 ^ n := Nat.mod_lt _ (Nat.pos_pow_of_pos n (by norm_num))
    rw [beBytes, beVal_cons, beBytes_length, ih _ hmod]
    have hdiv : v / 256 ^ n < 256 := by
      apply Nat.div_lt_of_lt_mul
      calc v < 256 ^ (n + 1) := h
        _ = 256 ^ n * 256 := by ring
    rw [Nat.mod_eq_of_lt hdiv]
    exact (Nat.div_add_mod' v (256 ^ n))

theorem beBytes_lt (n v : Nat) : ∀ b ∈ beBytes n v, b < 256 := by
  induction n generalizing v with
  | zero => simp [beBytes]
  | succ n ih =>
    intro b hb
    simp only [beBytes, List.mem_cons] at hb
    rcases hb with h | h
    · exact h ▸ Nat.mod_lt _ (by norm_num)
    · exact ih _ b h

/-- Read `n` bytes off the front of a stream; fails if too short. -/
def readBytes (n : Nat) (s : List Nat) : Option (List Nat × List Nat) :=
  if n ≤ s.length then some (s.take n, s.drop n) else none

/-- Read a big-endian `n`-byte integer off the front of a stream. -/
def readBE (n : Nat) (s : List Nat) : Option (Nat × List Nat) :=
  (readBytes n s).map fun p => (beVal p.1, p.2)

theorem readBytes_append (a r : List Nat) :
    readBytes a.length (a ++ r) = some (a, r) := by
  simp [readBytes]

theorem readBE_append (n v : Nat) (hv : v < 256 ^ n) (r : List Nat) :
    readBE n (beBytes n v ++ r) = some (v, r) := by
  rw [readBE]
  have h := readBytes_append (beBytes n v) r
  rw [beBytes_length] at h
  rw [h, Option.map_some']
  simp [beVal_beBytes n v hv]

/-! ## CRC-32 checksum

Modelled from the spec: `sanchez/format.py` is not in the available sources;
§4.2 specifies "a fast non-cryptographic integrity check (e.g., CRC32) over
the stored (possibly compressed) bytes".  We model the standard CRC-32
(polynomial 0xEDB88320, init/xorout 0xFFFFFFFF) over `Nat`. -/

/-- The reflected CRC-32 polynomial. -/
def crcPoly : Nat := 0xEDB88320

/-- One bit-round of CRC-32: shift right, conditionally xor the polynomial. -/
def crcRound (c : Nat) : Nat :=
  (c / 2) ^^^ (if c % 2 = 1 then crcPoly else 0)

/-- `n` bit-rounds. -/
def crcRoundN : Nat → Nat → Nat
  | 0, c => c
  | n + 1, c => crcRoundN n (crcRound c)

/-- Absorb one byte: xor it into the low bits, then run 8 bit-rounds. -/
def crcStep (c b : Nat) : Nat := crcRoundN 8 (c ^^^ b)

/-- Running CRC state over a byte list. -/
def crcFold (c : Nat) (l : List Nat) : Nat := l.foldl crcStep c

/-- CRC-32 of a byte list. -/
def crc32 (l : List Nat) : Nat := crcFold 0xFFFFFFFF l ^^^ 0xFFFFFFFF

theorem crcRound_lt (c : Nat) (h : c < 2 ^ 32) : crcRound c < 2 ^ 32 := by
  rw [crcRound]
  apply Nat.xor_lt_two_pow
  · omega
  · split <;> simp [crcPoly]

theorem crcRoundN_lt (n c : Nat) (h : c < 2 ^ 32) : crcRoundN n c < 2 ^ 32 := by
  induction n generalizing c with
  | zero => exact h
  | succ n ih => exact ih _ (crcRound_lt c h)

/-- Explicit inverse of one bit-round (for states below `2 ^ 32`). -/
def crcRoundInv (o : Nat) : Nat :=
  ((o ^^^ (o / 2 ^ 31) * crcPoly) * 2) + o / 2 ^ 31

theorem crcRoundInv_crcRound (c : Nat) (h : c < 2 ^ 32) :
    crcRoundInv (crcRound c) = c := by
  have hd : c / 2 < 2 ^ 31 := by omega
  rcases Nat.mod_two_eq_zero_or_one c with he | ho
  · have : crcRound c = c / 2 := by simp [crcRound, he]
    rw [this, crcRoundInv, Nat.div_div_eq_div_mul]
    have h31 : c / (2 * 2 ^ 31) = 0 := Nat.div_eq_of_lt (by omega)
    rw [h31]
    simp
    omega
  · have hr : crcRound c = (c / 2) ^^^ crcPoly := by simp [crcRound, ho]
    have htop : ((c / 2) ^^^ crcPoly) / 2 ^ 31 = 1 := by
      have hx : ((c / 2) ^^^ crcPoly) >>> 31 = (c / 2) >>> 31 ^^^ crcPoly >>> 31 := by
        apply Nat.eq_of_testBit_eq
        intro i
        simp [Nat.testBit_shiftRight, Nat.testBit_xor]
      have h1 : (c / 2) >>> 31 = 0 := by
        rw [Nat.shiftRight_eq_div_pow]
        exact Nat.div_eq_of_lt hd
      have h2 : crcPoly >>> 31 = 1 := by decide
      have := hx
      rw [h1, h2] at this
      rw [← Nat.shiftRight_eq_div_pow, this]
      rfl
    rw [hr, crcRoundInv, htop, one_mul, Nat.xor_assoc, Nat.xor_self, Nat.xor_zero]
    omega

theorem crcRound_injOn (c₁ c₂ : Nat) (h₁ : c₁ < 2 ^ 32) (h₂ : c₂ < 2 ^ 32)
    (he : crcRound c₁ = crcRound c₂) : c₁ = c₂ := by
  have := crcRoundInv_crcRound c₁ h₁
  rw [he, crcRoundInv_crcRound c₂ h₂] at this
  exact this.symm

theorem crcRoundN_injOn (n c₁ c₂ : Nat) (h₁ : c₁ < 2 ^ 32) (h₂ : c₂ < 2 ^ 32)
    (he : crcRoundN n c₁ = crcRoundN n c₂) : c₁ = c₂ := by
  induction n generalizing c₁ c₂ with
  | zero => exact he
  | succ n ih =>
    exact crcRound_injOn c₁ c₂ h₁ h₂
      (ih _ _ (crcRound_lt c₁ h₁) (crcRound_lt c₂ h₂) he)

theorem crcStep_lt (c b : Nat) (hc : c < 2 ^ 32) (hb : b < 2 ^ 32) :
    crcStep c b < 2 ^ 32 :=
  crcRoundN_lt 8 _ (Nat.xor_lt_two_pow hc hb)

/-- Absorbing distinct bytes from the same state yields distinct states. -/
theorem crcStep_ne_of_byte_ne (c b₁ b₂ : Nat) (hc : c < 2 ^ 32)
    (hb₁ : b₁ < 256) (hb₂ : b₂ < 256) (hne : b₁ ≠ b₂) :
    crcStep c b₁ ≠ crcStep c b₂ := by
  intro he
  apply hne
  have h₁ : c ^^^ b₁ < 2 ^ 32 := Nat.xor_lt_two_pow hc (by omega)
  have h₂ : c ^^^ b₂ < 2 ^ 32 := Nat.xor_lt_two_pow hc (by omega)
  have := crcRoundN_injOn 8 _ _ h₁ h₂ he
  have h := congrArg (fun x => c ^^^ x) this
  simpa [← Nat.xor_assoc, Nat.xor_self, Nat.zero_xor] using h

/-- Absorbing the same byte from distinct states yields distinct states. -/
theorem crcStep_ne_of_state_ne (c₁ c₂ b : Nat) (h₁ : c₁ < 2 ^ 32)
    (h₂ : c₂ < 2 ^ 32) (hb : b < 2 ^ 32) (hne : c₁ ≠ c₂) :
    crcStep c₁ b ≠ crcStep c₂ b := by
  intro he
  apply hne
  have hx₁ : c₁ ^^^ b < 2 ^ 32 := Nat.xor_lt_two_pow h₁ hb
  have hx₂ : c₂ ^^^ b < 2 ^ 32 := Nat.xor_lt_two_pow h₂ hb
  have := crcRoundN_injOn 8 _ _ hx₁ hx₂ he
  have h := congrArg (fun x => x ^^^ b) this
  simpa [Nat.xor_assoc, Nat.xor_self, Nat.xor_zero] using h

theorem crcFold_lt (c : Nat) (l : List Nat) (hc : c < 2 ^ 32)
    (hl : ∀ b ∈ l, b < 256) : crcFold c l < 2 ^ 32 := by
  induction l generalizing c with
  | nil => exact hc
  | cons x xs ih =>
    have hx : x < 256 := hl x (by simp)
    exact ih _ (crcStep_lt c x hc (by omega)) (fun b hb => hl b (by simp [hb]))

/-- Distinct states fed the same byte suffix stay distinct. -/
theorem crcFold_ne_of_state_ne (l : List Nat) (c₁ c₂ : Nat) (h₁ : c₁ < 2 ^ 32)
    (h₂ : c₂ < 2 ^ 32) (hl : ∀ b ∈ l, b < 256) (hne : c₁ ≠ c₂) :
    crcFold c₁ l ≠ crcFold c₂ l := by
  induction l generalizing c₁ c₂ with
  | nil => exact hne
  | cons x xs ih =>
    have hx : x < 256 := hl x (by simp)
    exact ih _ _ (crcStep_lt c₁ x h₁ (by omega)) (crcStep_lt c₂ x h₂ (by omega))
      (fun b hb => hl b (by simp [hb]))
      (crcStep_ne_of_state_ne c₁ c₂ x h₁ h₂ (by omega) hne)

theorem crcFold_append (c : Nat) (l₁ l₂ : List Nat) :
    crcFold c (l₁ ++ l₂) = crcFold (crcFold c l₁) l₂ := by
  simp [crcFold, List.foldl_append]

/-- CRC-32 distinguishes any two byte lists differing in exactly one byte. -/
theorem crc32_ne_of_set (l : List Nat) (p v : Nat) (hp : p < l.length)
    (hl : ∀ b ∈ l, b < 256) (hv : v < 256) (hne : v ≠ l.get ⟨p, hp⟩) :
    crc32 (l.set p v) ≠ crc32 l := by
  have hsplit : l = l.take p ++ l.get ⟨p, hp⟩ :: l.drop (p + 1) := by
    conv_lhs => rw [← List.take_append_drop p l]
    congr 1
    rw [List.drop_eq_getElem_cons hp]
    rfl
  have hset : l.set p v = l.take p ++ v :: l.drop (p + 1) := by
    rw [List.set_eq_take_append_cons_drop]
    simp [hp]
  intro he
  rw [crc32, crc32] at he
  have hstate : crcFold 0xFFFFFFFF (l.set p v) = crcFold 0xFFFFFFFF l := by
    have h1 := congrArg (fun x => x ^^^ 0xFFFFFFFF) he
    simpa [Nat.xor_assoc, Nat.xor_self, Nat.xor_zero] using h1
  rw [hset, crcFold_append] at hstate
  conv_rhs at hstate => rw [hsplit, crcFold_append]
  set c := crcFold 0xFFFFFFFF (l.take p) with hc
  have hcb : c < 2 ^ 32 := crcFold_lt _ _ (by norm_num)
    (fun b hb => hl b (List.mem_of_mem_take hb))
  have hdrop : ∀ b ∈ l.drop (p + 1), b < 256 :=
    fun b hb => hl b (List.mem_of_mem_drop hb)
  have hold : l.get ⟨p, hp⟩ < 256 := hl _ (l.get_mem p hp)
  rw [show crcFold c (v :: l.drop (p + 1)) = crcFold (crcStep c v) (l.drop (p + 1)) from rfl,
    show crcFold c (l.get ⟨p, hp⟩ :: l.drop (p + 1))
      = crcFold (crcStep c (l.get ⟨p, hp⟩)) (l.drop (p + 1)) from rfl] at hstate
  exact crcFold_ne_of_state_ne (l.drop (p + 1)) _ _
    (crcStep_lt c v hcb (by omega)) (crcStep_lt c _ hcb (by omega)) hdrop
    (crcStep_ne_of_byte_ne c v _ hcb hv hold hne) hstate

/-! ## Frame Codec

Modelled from the spec: the Frame Codec of §4.1 is not in the available
sources.  §4.1 requires a "generic lossless byte-stream compressor …
deterministic and byte-exact on decompression", identity when
`compression_enabled` is false, and `CorruptFrame` when the decompressed
length does not match `expected_raw_length` or the input is malformed.
We model it as run-length encoding (runs capped at 255 so counts fit in a
byte). -/

/-- Run-length compression, one pending run `(b, n)` at a time (counts
capped at 255 so they fit in a byte). -/
def rleEncodeAux (b n : Nat) : List Nat → List Nat
  | [] => [n, b]
  | c :: rest =>
    if c = b ∧ n < 255 then rleEncodeAux b (n + 1) rest
    else n :: b :: rleEncodeAux c 1 rest

/-- Run-length compression: emit `(count, byte)` pairs, runs capped at 255. -/
def rleEncode : List Nat → List Nat
  | [] => []
  | b :: rest => rleEncodeAux b 1 rest

/-- Run-length decompression; `none` on a malformed (odd-length) stream. -/
def rleDecode : List Nat → Option (List Nat)
  | [] => some []
  | [_] => none
  | n :: b :: rest => (rleDecode rest).map (List.replicate n b ++ ·)

theorem rleDecode_rleEncodeAux (b n : Nat) (rest : List Nat) :
    rleDecode (rleEncodeAux b n rest) = some (List.replicate n b ++ rest) := by
  induction rest generalizing b n with
  | nil => simp [rleEncodeAux, rleDecode]
  | cons c rest ih =>
    rw [rleEncodeAux]
    split
    · rename_i hc
      rw [ih b (n + 1)]
      congr 1
      rw [List.replicate_succ']
      simp [hc.1]
    · rw [rleDecode, ih c 1, Option.map_some']
      simp

theorem rleDecode_rleEncode (l : List Nat) : rleDecode (rleEncode l) = some l := by
  cases l with
  | nil => rfl
  | cons b rest =>
    rw [rleEncode, rleDecode_rleEncodeAux]
    simp

theorem rleEncodeAux_lt (b n : Nat) (rest : List Nat) (hb : b < 256)
    (hn : n ≤ 255) (hrest : ∀ x ∈ rest, x < 256) :
    ∀ x ∈ rleEncodeAux b n rest, x < 256 := by
  induction rest generalizing b n with
  | nil =>
    intro x hx
    rcases List.mem_cons.mp hx with rfl | hx'
    · omega
    · simp only [List.mem_singleton] at hx'
      omega
  | cons c rest ih =>
    rw [rleEncodeAux]
    split
    · rename_i hc
      exact ih b (n + 1) hb (by omega) (fun x hx => hrest x (by simp [hx]))
    · intro x hx
      rcases List.mem_cons.mp hx with rfl | hx'
      · omega
      · rcases List.mem_cons.mp hx' with rfl | hx''
        · exact hb
        · exact ih c 1 (hrest c (by simp)) (by omega)
            (fun y hy => hrest y (by simp [hy])) x hx''

theorem rleEncode_lt (l : List Nat) (hl : ∀ b ∈ l, b < 256) :
    ∀ b ∈ rleEncode l, b < 256 := by
  cases l with
  | nil => simp [rleEncode]
  | cons b rest =>
    rw [rleEncode]
    exact rleEncodeAux_lt b 1 rest (hl b (by simp)) (by omega)
      (fun x hx => hl x (by simp [hx]))

/-- `compress` of §4.1: RLE when enabled, identity otherwise. -/
def compressBytes (enabled : Bool) (x : List Nat) : List Nat :=
  if enabled then rleEncode x else x

/-- `decompress` of §4.1: inverse transform, then the expected-length check. -/
def decompressBytes (enabled : Bool) (data : List Nat) (expected : Nat) :
    Except SanchezError (List Nat) :=
  match (if enabled then rleDecode data else some data) with
  | none => .error .CorruptFrame
  | some out => if out.length = expected then .ok out else .error .CorruptFrame

theorem decompress_compress (enabled : Bool) (x : List Nat) :
    decompressBytes enabled (compressBytes enabled x) x.length = .ok x := by
  cases enabled with
  | false => simp [compressBytes, decompressBytes]
  | true => simp [compressBytes, decompressBytes, rleDecode_rleEncode]

theorem compressBytes_lt (enabled : Bool) (x : List Nat) (hx : ∀ b ∈ x, b < 256) :
    ∀ b ∈ compressBytes enabled x, b < 256 := by
  cases enabled with
  | false => simpa [compressBytes] using hx
  | true => simpa [compressBytes] using rleEncode_lt x hx

structure SanchezMetadata where
  title : List Nat
  creator : List Nat
  created_at : Nat
  deriving DecidableEq, Repr

structure SanchezConfig where
  width : Nat
  height : Nat
  fpsMilli : Nat
  frame_count : Nat
  is_image : Bool
  compression_enabled : Bool
  deriving DecidableEq, Repr

/-- A Frame Record of §3 (one entry of the ordered frame index table). -/
structure FrameRecord where
  index : Nat
  byte_offset : Nat
  stored_length : Nat
  raw_length : Nat
  checksum : Nat
  deriving DecidableEq, Repr

structure SanchezFile where
  metadata : SanchezMetadata
  config : SanchezConfig
  index : List FrameRecord
  payload : List Nat
  deriving DecidableEq, Repr

/-- `create(title, creator, width, height)` of §4.2: an empty authoring-state
container.  The timestamp and compression flag are environment inputs. -/
def SanchezFile.create (title creator : List Nat) (width height : Nat)
    (compression : Bool) (created_at : Nat) : SanchezFile :=
  { metadata := ⟨title, creator, created_at⟩
    config := ⟨width, height, 24000, 0, false, compression⟩
    index := []
    payload := [] }

/-- `append_frame(raw_buffer)` of §4.2 (exposed as `add_frame` by callers):
validate dimensions, compress, append a Frame Record with a fresh checksum,
bump `frame_count`. -/
def append_frame (f : SanchezFile) (buf : List Nat) :
    Except SanchezError SanchezFile :=
  if buf.length = f.config.width * f.config.height * 3 then
    let stored := compressBytes f.config.compression_enabled buf
    .ok { f with
      config := { f.config with frame_count := f.config.frame_count + 1 }
      index := f.index ++
        [⟨f.index.length, f.payload.length, stored.length, buf.length,
          crc32 stored⟩]
      payload := f.payload ++ stored }
  else .error .DimensionMismatch

/-- `frame_count()` of §4.2. -/
def SanchezFile.frameCount (f : SanchezFile) : Nat := f.config.frame_count

/-- `get_frame(index)` of §4.2: random access through the Frame Index,
checksum verification over the stored bytes, decompress-on-read. -/
def get_frame (f : SanchezFile) (i : Nat) : Except SanchezError (List Nat) :=
  if h : i < f.index.length then
    let r := f.index.get ⟨i, h⟩
    let stored := (f.payload.drop r.byte_offset).take r.stored_length
    if crc32 stored = r.checksum then
      decompressBytes f.config.compression_enabled stored r.raw_length
    else .error .CorruptFrame
  else .error .IndexOutOfRange

/-! ### Binary layout (§4.2) -/

/-- The 4-byte magic at offset 0. -/
def magicBytes : List Nat := [83, 78, 67, 90]

/-- The container format version. -/
def formatVersion : Nat := 2

def boolByte (b : Bool) : Nat := if b then 1 else 0

def serializeMetadata (m : SanchezMetadata) : List Nat :=
  beBytes 4 m.title.length ++ m.title ++
  beBytes 4 m.creator.length ++ m.creator ++
  beBytes 8 m.created_at

def serializeConfig (c : SanchezConfig) : List Nat :=
  beBytes 4 c.width ++ beBytes 4 c.height ++ beBytes 4 c.fpsMilli ++
  beBytes 4 c.frame_count ++ [boolByte c.is_image, boolByte c.compression_enabled]

def serializeRecord (r : FrameRecord) : List Nat :=
  beBytes 8 r.byte_offset ++ beBytes 4 r.stored_length ++
  beBytes 4 r.raw_length ++ beBytes 4 r.checksum

/-- Everything before the frame payload region. -/
def serializeHeader (f : SanchezFile) : List Nat :=
  magicBytes ++ beBytes 2 formatVersion ++
  beBytes 4 (serializeMetadata f.metadata).length ++
  serializeMetadata f.metadata ++
  serializeConfig f.config ++
  beBytes 4 f.index.length ++
  (f.index.map serializeRecord).flatten

/-- `save(path)` of §4.2: header, metadata, config, index, payloads,
contiguously. -/
def save (f : SanchezFile) : List Nat := serializeHeader f ++ f.payload

def readByte (s : List Nat) : Option (Nat × List Nat) :=
  match s with
  | [] => none
  | b :: r => some (b, r)

def parseMetadata (s : List Nat) : Option (SanchezMetadata × List Nat) := do
  let (tl, s) ← readBE 4 s
  let (title, s) ← readBytes tl s
  let (cl, s) ← readBE 4 s
  let (creator, s) ← readBytes cl s
  let (ca, s) ← readBE 8 s
  pure (⟨title, creator, ca⟩, s)

def parseConfig (s : List Nat) : Option (SanchezConfig × List Nat) := do
  let (w, s) ← readBE 4 s
  let (h, s) ← readBE 4 s
  let (fps, s) ← readBE 4 s
  let (fc, s) ← readBE 4 s
  let (ii, s) ← readByte s
  let (ce, s) ← readByte s
  pure (⟨w, h, fps, fc, ii != 0, ce != 0⟩, s)

/-- Parse `n` index entries; the `index` field of each record is its
zero-based position (`pos` counts from the caller's start). -/
def parseRecords : Nat → Nat → List Nat → Option (List FrameRecord × List Nat)
  | 0, _, s => some ([], s)
  | n + 1, pos, s => do
    let (off, s) ← readBE 8 s
    let (sl, s) ← readBE 4 s
    let (rl, s) ← readBE 4 s
    let (ck, s) ← readBE 4 s
    let (rest, s) ← parseRecords n (pos + 1) s
    pure (⟨pos, off, sl, rl, ck⟩ :: rest, s)

def parseBody (s : List Nat) : Option SanchezFile := do
  let (_, s) ← readBE 4 s
  let (md, s) ← parseMetadata s
  let (cfg, s) ← parseConfig s
  let (n, s) ← readBE 4 s
  let (idx, s) ← parseRecords n 0 s
  pure ⟨md, cfg, idx, s⟩

/-- `open(path)` of §4.2: parse header/metadata/config/index; the remainder
of the file is the payload region.  `InvalidFormat` on a magic/version
mismatch or a truncated header. -/
def openFile (s : List Nat) : Except SanchezError SanchezFile :=
  match readBytes 4 s with
  | none => .error .InvalidFormat
  | some (magic, s) =>
    if magic = magicBytes then
      match readBE 2 s with
      | none => .error .InvalidFormat
      | some (ver, s) =>
        if ver = formatVersion then
          match parseBody s with
          | none => .error .InvalidFormat
          | some f => .ok f
        else .error .InvalidFormat
    else .error .InvalidFormat

/-! ### Authoring: folding `append_frame` over a buffer sequence -/

/-- `create` followed by appending each buffer in order (short-circuiting on
the first failure). -/
def buildContainer (title creator : List Nat) (width height : Nat)
    (compression : Bool) (created_at : Nat) (bufs : List (List Nat)) :
    Except SanchezError SanchezFile :=
  bufs.foldlM append_frame
    (SanchezFile.create title creator width height compression created_at)

/-- Closed form of the index records produced by appending `bufs` starting
at frame position `i0` and payload offset `off`. -/
def recordsFrom (comp : Bool) (i0 off : Nat) : List (List Nat) → List FrameRecord
  | [] => []
  | b :: bs =>
    let st := compressBytes comp b
    ⟨i0, off, st.length, b.length, crc32 st⟩ ::
      recordsFrom comp (i0 + 1) (off + st.length) bs

theorem recordsFrom_length (comp : Bool) (i0 off : Nat) (bufs : List (List Nat)) :
    (recordsFrom comp i0 off bufs).length = bufs.length := by
  induction bufs generalizing i0 off with
  | nil => rfl
  | cons b bs ih => simp [recordsFrom, ih]

/-- Characterization of a successful authoring run from an arbitrary state. -/
theorem foldlM_append_frame (bufs : List (List Nat)) (f₀ : SanchezFile)
    (hlen : ∀ b ∈ bufs, b.length = f₀.config.width * f₀.config.height * 3) :
    bufs.foldlM append_frame f₀ = .ok
      { metadata := f₀.metadata
        config := { f₀.config with
          frame_count := f₀.config.frame_count + bufs.length }
        index := f₀.index ++
          recordsFrom f₀.config.compression_enabled f₀.index.length
            f₀.payload.length bufs
        payload := f₀.payload ++
          (bufs.map (compressBytes f₀.config.compression_enabled)).flatten } := by
  induction bufs generalizing f₀ with
  | nil =>
    simp only [List.foldlM_nil, List.length_nil, Nat.add_zero, recordsFrom,
      List.append_nil, List.map_nil, List.flatten_nil]
    rfl
  | cons b bs ih =>
    have hb : b.length = f₀.config.width * f₀.config.height * 3 :=
      hlen b (by simp)
    have happ : append_frame f₀ b = .ok { f₀ with
        config := { f₀.config with frame_count := f₀.config.frame_count + 1 }
        index := f₀.index ++
          [⟨f₀.index.length, f₀.payload.length,
            (compressBytes f₀.config.compression_enabled b).length, b.length,
            crc32 (compressBytes f₀.config.compression_enabled b)⟩]
        payload := f₀.payload ++ compressBytes f₀.config.compression_enabled b } := by
      simp [append_frame, hb]
    rw [List.foldlM_cons, happ]
    have hbind : ∀ g : SanchezFile,
        (Except.ok (ε := SanchezError) g >>= fun f => bs.foldlM append_frame f) =
          bs.foldlM append_frame g := fun g => rfl
    rw [hbind]
    rw [ih _ (fun x hx => by simpa using hlen x (List.mem_cons_of_mem b hx))]
    simp only [SanchezFile.mk.injEq, SanchezConfig.mk.injEq, Except.ok.injEq,
      List.length_append, List.length_cons, List.length_nil, List.map_cons,
      List.flatten_cons, recordsFrom, List.append_assoc, List.singleton_append,
      List.cons_append, List.nil_append]
    repeat' constructor
    all_goals first | rfl | omega

/-! ### Round trip: `openFile ∘ save` -/

theorem lt_256_pow_4 {v : Nat} (h : v < 2 ^ 32) : v < 256 ^ 4 := by
  norm_num at h ⊢
  omega

theorem lt_256_pow_8 {v : Nat} (h : v < 2 ^ 64) : v < 256 ^ 8 := by
  norm_num at h ⊢
  omega

theorem parseMetadata_append (m : SanchezMetadata) (r : List Nat)
    (ht : m.title.length < 2 ^ 32) (hc : m.creator.length < 2 ^ 32)
    (ha : m.created_at < 2 ^ 64) :
    parseMetadata (serializeMetadata m ++ r) = some (m, r) := by
  rw [parseMetadata, serializeMetadata]
  simp only [List.append_assoc]
  rw [readBE_append 4 m.title.length (lt_256_pow_4 ht)]
  simp only [Option.bind_eq_bind, Option.some_bind]
  rw [readBytes_append]
  simp only [Option.some_bind]
  rw [readBE_append 4 m.creator.length (lt_256_pow_4 hc)]
  simp only [Option.some_bind]
  rw [readBytes_append]
  simp only [Option.some_bind]
  rw [readBE_append 8 m.created_at (lt_256_pow_8 ha)]
  simp only [Option.some_bind]
  rfl

theorem readByte_cons (b : Nat) (r : List Nat) : readByte (b :: r) = some (b, r) := rfl

theorem bne_boolByte (b : Bool) : (boolByte b != 0) = b := by
  cases b <;> rfl

theorem parseConfig_append (c : SanchezConfig) (r : List Nat)
    (hw : c.width < 2 ^ 32) (hh : c.height < 2 ^ 32)
    (hf : c.fpsMilli < 2 ^ 32) (hn : c.frame_count < 2 ^ 32) :
    parseConfig (serializeConfig c ++ r) = some (c, r) := by
  rw [parseConfig, serializeConfig]
  simp only [List.append_assoc, List.cons_append, List.nil_append]
  rw [readBE_append 4 c.width (lt_256_pow_4 hw)]
  simp only [Option.bind_eq_bind, Option.some_bind]
  rw [readBE_append 4 c.height (lt_256_pow_4 hh)]
  simp only [Option.some_bind]
  rw [readBE_append 4 c.fpsMilli (lt_256_pow_4 hf)]
  simp only [Option.some_bind]
  rw [readBE_append 4 c.frame_count (lt_256_pow_4 hn)]
  simp only [Option.some_bind]
  rw [readByte_cons]
  simp only [Option.some_bind]
  rw [readByte_cons]
  simp [bne_boolByte]

/-- Bounds on one frame record's serialized fields. -/
def recordBounds (rec : FrameRecord) : Prop :=
  rec.byte_offset < 2 ^ 64 ∧ rec.stored_length < 2 ^ 32 ∧
    rec.raw_length < 2 ^ 32 ∧ rec.checksum < 2 ^ 32

theorem parseRecords_append (l : List FrameRecord) (pos : Nat) (r : List Nat)
    (hpos : ∀ i (h : i < l.length), (l.get ⟨i, h⟩).index = pos + i)
    (hb : ∀ rec ∈ l, recordBounds rec) :
    parseRecords l.length pos ((l.map serializeRecord).flatten ++ r) =
      some (l, r) := by
  induction l generalizing pos with
  | nil => rfl
  | cons rec rest ih =>
    obtain ⟨h1, h2, h3, h4⟩ := hb rec (by simp)
    rw [List.length_cons, List.map_cons, List.flatten_cons, parseRecords,
      serializeRecord]
    simp only [List.append_assoc]
    rw [readBE_append 8 rec.byte_offset (lt_256_pow_8 h1)]
    simp only [Option.bind_eq_bind, Option.some_bind]
    rw [readBE_append 4 rec.stored_length (lt_256_pow_4 h2)]
    simp only [Option.some_bind]
    rw [readBE_append 4 rec.raw_length (lt_256_pow_4 h3)]
    simp only [Option.some_bind]
    rw [readBE_append 4 rec.checksum (lt_256_pow_4 h4)]
    simp only [Option.some_bind]
    rw [ih (pos + 1)
      (fun i h => by
        have := hpos (i + 1) (by simpa using Nat.succ_lt_succ h)
        simpa [Nat.add_assoc, Nat.add_comm 1 i] using this)
      (fun x hx => hb x (by simp [hx]))]
    have h0 : rec.index = pos := by simpa using hpos 0 (by simp)
    simp only [Option.some_bind, Option.pure_def, Option.some.injEq,
      Prod.mk.injEq, List.cons.injEq, ← h0]

/-- Numeric-field bounds needed for the byte layout of §4.2. -/
def fileBounds (f : SanchezFile) : Prop :=
  f.metadata.title.length + f.metadata.creator.length + 16 < 2 ^ 32 ∧
  f.metadata.created_at < 2 ^ 64 ∧ f.config.width < 2 ^ 32 ∧
  f.config.height < 2 ^ 32 ∧ f.config.fpsMilli < 2 ^ 32 ∧
  f.config.frame_count < 2 ^ 32 ∧ f.index.length < 2 ^ 32 ∧
  ∀ rec ∈ f.index, recordBounds rec

/-- The frame index invariant of §3: `index` equals the record's zero-based
position in the table. -/
def indexPositional (f : SanchezFile) : Prop :=
  ∀ i (h : i < f.index.length), (f.index.get ⟨i, h⟩).index = i

theorem readBytes_magic (r : List Nat) :
    readBytes 4 (magicBytes ++ r) = some (magicBytes, r) :=
  readBytes_append magicBytes r

/-- Parsing a serialized header followed by arbitrary payload bytes yields
the same metadata/config/index with that payload region. -/
theorem openFile_header (f : SanchezFile) (p : List Nat) (hb : fileBounds f)
    (hp : indexPositional f) :
    openFile (serializeHeader f ++ p) = .ok { f with payload := p } := by
  obtain ⟨h12, h3, h4, h5, h6, h7, h8, h9⟩ := hb
  have h1 : f.metadata.title.length < 2 ^ 32 := by omega
  have h2 : f.metadata.creator.length < 2 ^ 32 := by omega
  rw [serializeHeader, openFile]
  simp only [List.append_assoc]
  rw [readBytes_magic]
  simp only [eq_self_iff_true, if_true]
  rw [readBE_append 2 formatVersion (by norm_num [formatVersion])]
  simp only [eq_self_iff_true, if_true]
  rw [parseBody]
  rw [readBE_append 4 (serializeMetadata f.metadata).length
    (lt_256_pow_4 (by
      simp only [serializeMetadata, List.length_append, beBytes_length]
      norm_num at h12 ⊢
      omega))]
  simp only [Option.bind_eq_bind, Option.some_bind]
  rw [parseMetadata_append f.metadata _ h1 h2 h3]
  simp only [Option.some_bind]
  rw [parseConfig_append f.config _ h4 h5 h6 h7]
  simp only [Option.some_bind]
  rw [readBE_append 4 f.index.length (lt_256_pow_4 h8)]
  simp only [Option.some_bind]
  rw [parseRecords_append f.index 0 p (by simpa using hp) h9]
  simp only [Option.some_bind]

/-- Reopening a saved container parses back to exactly the same container. -/
theorem openFile_save (f : SanchezFile) (hb : fileBounds f)
    (hp : indexPositional f) : openFile (save f) = .ok f := by
  rw [save, openFile_header f f.payload hb hp]

/-! ### The container built by `create` + appends, and random access into it -/

/-- The container produced by `create` followed by successfully appending
`bufs` in order. -/
def builtFile (title creator : List Nat) (width height : Nat) (comp : Bool)
    (ca : Nat) (bufs : List (List Nat)) : SanchezFile :=
  { metadata := ⟨title, creator, ca⟩
    config := ⟨width, height, 24000, bufs.length, false, comp⟩
    index := recordsFrom comp 0 0 bufs
    payload := (bufs.map (compressBytes comp)).flatten }

theorem buildContainer_eq (title creator : List Nat) (width height : Nat)
    (comp : Bool) (ca : Nat) (bufs : List (List Nat))
    (hlen : ∀ b ∈ bufs, b.length = width * height * 3) :
    buildContainer title creator width height comp ca bufs =
      .ok (builtFile title creator width height comp ca bufs) := by
  rw [buildContainer, foldlM_append_frame bufs _ (by simpa [SanchezFile.create] using hlen)]
  simp [SanchezFile.create, builtFile]

/-- Slicing a flattened list at the cumulative-length offset of block `i`
recovers block `i`. -/
theorem flatten_drop_take (L : List (List Nat)) (i : Nat) (h : i < L.length) :
    ((L.flatten).drop (((L.take i).map List.length).sum)).take
        (L.get ⟨i, h⟩).length = L.get ⟨i, h⟩ := by
  induction L generalizing i with
  | nil => simp at h
  | cons x xs ih =>
    cases i with
    | zero => simp
    | succ i =>
      have hi : i < xs.length := by simpa using h
      simp only [List.take_succ_cons, List.map_cons, List.sum_cons,
        List.flatten_cons, List.get_cons_succ]
      rw [List.drop_append]
      exact ih i hi

/-- Closed form of the record at position `i` produced by `recordsFrom`. -/
theorem recordsFrom_get (comp : Bool) (i0 off : Nat) (bufs : List (List Nat))
    (i : Nat) (h : i < bufs.length) :
    (recordsFrom comp i0 off bufs).get
        ⟨i, (recordsFrom_length comp i0 off bufs).symm ▸ h⟩ =
      ⟨i0 + i,
        off + ((bufs.take i).map fun b => (compressBytes comp b).length).sum,
        (compressBytes comp (bufs.get ⟨i, h⟩)).length,
        (bufs.get ⟨i, h⟩).length,
        crc32 (compressBytes comp (bufs.get ⟨i, h⟩))⟩ := by
  induction bufs generalizing i0 off i with
  | nil => simp at h
  | cons b bs ih =>
    cases i with
    | zero => simp [recordsFrom]
    | succ i =>
      have hi : i < bs.length := by simpa using h
      have := ih (i0 + 1) (off + (compressBytes comp b).length) i hi
      simp only [recordsFrom, List.get_cons_succ, List.take_succ_cons,
        List.map_cons, List.sum_cons] at this ⊢
      rw [this]
      congr 1 <;> omega

/-- Random access into a built container returns the appended buffer. -/
theorem get_frame_built (title creator : List Nat) (width height : Nat)
    (comp : Bool) (ca : Nat) (bufs : List (List Nat))
    (i : Nat) (h : i < bufs.length) :
    get_frame (builtFile title creator width height comp ca bufs) i =
      .ok (bufs.get ⟨i, h⟩) := by
  have hlen : i < (builtFile title creator width height comp ca bufs).index.length := by
    simpa [builtFile, recordsFrom_length] using h
  rw [get_frame, dif_pos hlen]
  have hrec : (builtFile title creator width height comp ca bufs).index.get ⟨i, hlen⟩ =
      ⟨0 + i,
        0 + ((bufs.take i).map fun b => (compressBytes comp b).length).sum,
        (compressBytes comp (bufs.get ⟨i, h⟩)).length,
        (bufs.get ⟨i, h⟩).length,
        crc32 (compressBytes comp (bufs.get ⟨i, h⟩))⟩ :=
    recordsFrom_get comp 0 0 bufs i h
  rw [hrec]
  have hmap : ((bufs.take i).map fun b => (compressBytes comp b).length).sum =
      (((bufs.map (compressBytes comp)).take i).map List.length).sum := by
    rw [← List.map_take, List.map_map]
    rfl
  have hL : i < (bufs.map (compressBytes comp)).length := by simpa using h
  have hgetmap : (bufs.map (compressBytes comp)).get ⟨i, hL⟩ =
      compressBytes comp (bufs.get ⟨i, h⟩) := by
    simp
  have hslice :
      (((bufs.map (compressBytes comp)).flatten).drop
          (0 + ((bufs.take i).map fun b => (compressBytes comp b).length).sum)).take
        (compressBytes comp (bufs.get ⟨i, h⟩)).length =
      compressBytes comp (bufs.get ⟨i, h⟩) := by
    rw [Nat.zero_add, hmap, ← hgetmap]
    exact flatten_drop_take (bufs.map (compressBytes comp)) i hL
  simp only [builtFile] at hslice ⊢
  rw [hslice, if_pos rfl]
  exact decompress_compress comp (bufs.get ⟨i, h⟩)

/-! ### Invariants and bounds of built containers -/

theorem rleEncodeAux_length_le (b n : Nat) (rest : List Nat) :
    (rleEncodeAux b n rest).length ≤ 2 + 2 * rest.length := by
  induction rest generalizing b n with
  | nil => simp [rleEncodeAux]
  | cons c rest ih =>
    rw [rleEncodeAux]
    split
    · have := ih b (n + 1)
      simp only [List.length_cons]
      omega
    · have := ih c 1
      simp only [List.length_cons]
      omega

theorem rleEncode_length_le (l : List Nat) : (rleEncode l).length ≤ 2 * l.length := by
  cases l with
  | nil => simp [rleEncode]
  | cons b rest =>
    rw [rleEncode]
    have := rleEncodeAux_length_le b 1 rest
    simp only [List.length_cons]
    omega

theorem compressBytes_length_le (comp : Bool) (b : List Nat) :
    (compressBytes comp b).length ≤ 2 * b.length := by
  cases comp with
  | false => simp [compressBytes]; omega
  | true => simpa [compressBytes] using rleEncode_length_le b

theorem builtFile_indexPositional (title creator : List Nat)
    (width height : Nat) (comp : Bool) (ca : Nat) (bufs : List (List Nat)) :
    indexPositional (builtFile title creator width height comp ca bufs) := by
  intro i h
  have h' : i < bufs.length := by
    simpa [builtFile, recordsFrom_length] using h
  have hrec := recordsFrom_get comp 0 0 bufs i h'
  simp only [builtFile] at h ⊢
  rw [hrec]
  simp

theorem crc32_lt (l : List Nat) (hl : ∀ b ∈ l, b < 256) : crc32 l < 2 ^ 32 := by
  rw [crc32]
  exact Nat.xor_lt_two_pow (crcFold_lt _ _ (by norm_num) hl) (by norm_num)

theorem sum_take_le_sum (ns : List Nat) (i : Nat) : (ns.take i).sum ≤ ns.sum := by
  conv_rhs => rw [← List.take_append_drop i ns]
  rw [List.sum_append]
  omega

theorem builtFile_fileBounds (title creator : List Nat) (width height : Nat)
    (comp : Bool) (ca : Nat) (bufs : List (List Nat))
    (hmeta : title.length + creator.length + 16 < 2 ^ 32) (hca : ca < 2 ^ 64)
    (hw : width < 2 ^ 32) (hh : height < 2 ^ 32) (hN : bufs.length < 2 ^ 32)
    (hwh : width * height * 3 < 2 ^ 31)
    (hlen : ∀ b ∈ bufs, b.length = width * height * 3)
    (hbytes : ∀ b ∈ bufs, ∀ x ∈ b, x < 256) :
    fileBounds (builtFile title creator width height comp ca bufs) := by
  have hstlen : ∀ b ∈ bufs, (compressBytes comp b).length ≤ 2 * (width * height * 3) :=
    fun b hb => (hlen b hb) ▸ compressBytes_length_le comp b
  have htotal : ((bufs.map fun b => (compressBytes comp b).length).sum : Nat)
      < 2 ^ 64 := by
    have hb : (bufs.map fun b => (compressBytes comp b).length).sum ≤
        bufs.length * (2 * (width * height * 3)) := by
      have := List.sum_le_card_nsmul
        (bufs.map fun b => (compressBytes comp b).length)
        (2 * (width * height * 3))
        (fun x hx => by
          obtain ⟨b, hb, rfl⟩ := List.mem_map.mp hx
          exact hstlen b hb)
      simpa [smul_eq_mul] using this
    calc (bufs.map fun b => (compressBytes comp b).length).sum
        ≤ bufs.length * (2 * (width * height * 3)) := hb
      _ < 2 ^ 32 * 2 ^ 32 := by
          apply Nat.mul_lt_mul_of_lt_of_le hN
          · omega
          · norm_num
      _ = 2 ^ 64 := by norm_num
  refine ⟨hmeta, hca, hw, hh, by simp [builtFile], ?_, ?_, ?_⟩
  · simpa [builtFile] using hN
  · simpa [builtFile, recordsFrom_length] using hN
  · intro rec hrec
    simp only [builtFile] at hrec
    obtain ⟨⟨i, hi⟩, hget⟩ := List.mem_iff_get.mp hrec
    have hi' : i < bufs.length := by
      simpa [recordsFrom_length] using hi
    have := recordsFrom_get comp 0 0 bufs i hi'
    rw [← hget, this]
    refine ⟨?_, ?_, ?_, ?_⟩
    · show (0 : Nat) + ((bufs.take i).map fun b => (compressBytes comp b).length).sum
        < 2 ^ 64
      rw [Nat.zero_add, List.map_take]
      exact Nat.lt_of_le_of_lt (sum_take_le_sum _ i) htotal
    · show (compressBytes comp (bufs.get ⟨i, hi'⟩)).length < 2 ^ 32
      have h1 := hstlen _ (bufs.get_mem i hi')
      omega
    · show (bufs.get ⟨i, hi'⟩).length < 2 ^ 32
      have h1 := hlen _ (bufs.get_mem i hi')
      omega
    · exact crc32_lt _ (compressBytes_lt comp _ (hbytes _ (bufs.get_mem i hi')))

/-- Bytewise XOR of two byte strings; the shorter operand is implicitly
zero-padded (XOR with zero is the identity). -/
def xorB : List Nat → List Nat → List Nat
  | [], b => b
  | a :: as, [] => a :: as
  | a :: as, b :: bs => (a ^^^ b) :: xorB as bs

@[simp] theorem xorB_nil_left (b : List Nat) : xorB [] b = b := by
  cases b <;> rfl

@[simp] theorem xorB_nil_right (a : List Nat) : xorB a [] = a := by
  cases a <;> rfl

theorem xorB_cons (a b : Nat) (as bs : List Nat) :
    xorB (a :: as) (b :: bs) = (a ^^^ b) :: xorB as bs := rfl

theorem xorB_comm (a b : List Nat) : xorB a b = xorB b a := by
  induction a generalizing b with
  | nil => simp
  | cons x xs ih =>
    cases b with
    | nil => simp
    | cons y ys => simp [xorB_cons, Nat.xor_comm, ih]

theorem xorB_assoc (a b c : List Nat) :
    xorB (xorB a b) c = xorB a (xorB b c) := by
  induction a generalizing b c with
  | nil => simp
  | cons x xs ih =>
    cases b with
    | nil => simp
    | cons y ys =>
      cases c with
      | nil => simp
      | cons z zs => simp [xorB_cons, Nat.xor_assoc, ih]

theorem xorB_self (a : List Nat) : xorB a a = List.replicate a.length 0 := by
  induction a with
  | nil => rfl
  | cons x xs ih => simp [xorB_cons, ih, List.replicate_succ]

theorem xorB_replicate_zero (a : List Nat) (n : Nat) (h : n ≤ a.length) :
    xorB a (List.replicate n 0) = a := by
  induction a generalizing n with
  | nil =>
    simp only [List.length_nil, Nat.le_zero] at h
    simp [h]
  | cons x xs ih =>
    cases n with
    | zero => simp
    | succ n =>
      simp only [List.replicate_succ, xorB_cons, Nat.xor_zero]
      rw [ih n (by simpa using h)]

theorem xorB_length (a b : List Nat) :
    (xorB a b).length = max a.length b.length := by
  induction a generalizing b with
  | nil => simp
  | cons x xs ih =>
    cases b with
    | nil => simp
    | cons y ys => simp [xorB_cons, ih, Nat.succ_max_succ]

/-- XOR-fold of a list of byte strings (the group parity of §4.5). -/
def xorFold (ls : List (List Nat)) : List Nat := ls.foldr xorB []

theorem xorFold_cons (x : List Nat) (ls : List (List Nat)) :
    xorFold (x :: ls) = xorB x (xorFold ls) := rfl

theorem xorFold_length_le (ls : List (List Nat)) (sz : Nat)
    (h : ∀ x ∈ ls, x.length ≤ sz) : (xorFold ls).length ≤ sz := by
  induction ls with
  | nil => simp [xorFold]
  | cons x xs ih =>
    rw [xorFold_cons, xorB_length]
    exact max_le (h x (by simp)) (ih (fun y hy => h y (by simp [hy])))

/-- Pulling one occurrence of `i` out of an XOR-fold over `L.map f`. -/
theorem xorFold_erase (L : List Nat) (f : Nat → List Nat) (i : Nat)
    (hi : i ∈ L) :
    xorFold (L.map f) = xorB (f i) (xorFold ((L.erase i).map f)) := by
  induction L with
  | nil => simp at hi
  | cons x xs ih =>
    by_cases hx : x = i
    · subst hx
      rw [List.erase_cons_head]
      simp [xorFold_cons]
    · have hi' : i ∈ xs := by
        rcases List.mem_cons.mp hi with h | h
        · exact absurd h.symm hx
        · exact h
      rw [List.erase_cons_tail (by simpa using hx)]
      simp only [List.map_cons, xorFold_cons, ih hi']
      rw [← xorB_assoc, xorB_comm (f x) (f i), xorB_assoc]

/-- XOR recovery of one missing group member: parity XOR the fold of the
remaining members reconstructs the member, provided all members share the
parity's length. -/
theorem xor_recover (L : List Nat) (f : Nat → List Nat) (i : Nat) (sz : Nat)
    (hi : i ∈ L) (hsz : ∀ j ∈ L, (f j).length = sz) :
    xorB (xorFold (L.map f)) (xorFold ((L.erase i).map f)) = f i := by
  rw [xorFold_erase L f i hi, xorB_assoc]
  have hle : (xorFold ((L.erase i).map f)).length ≤ sz := by
    apply xorFold_length_le
    intro x hx
    obtain ⟨j, hj, rfl⟩ := List.mem_map.mp hx
    exact (hsz j (List.mem_of_mem_erase hj)).le
  rw [xorB_self]
  rw [xorB_replicate_zero _ _ (by rw [hsz i hi]; exact hle)]

/-! ### Packet model (§3, §4.5) -/

/-- The wire packet taxonomy of §3. -/
inductive PacketType where
  | HELLO | METADATA | CONFIG | FRAME | FRAME_CHUNK | PARITY | AUDIO
  | END | KEEPALIVE
  deriving DecidableEq, Repr

/-- A FRAME_CHUNK payload: `(frame_index, chunk_index, chunk_count, bytes)`
plus the unpadded payload length (see the modelling note above). -/
structure ChunkPacket where
  frame_index : Nat
  chunk_index : Nat
  chunk_count : Nat
  total_len : Nat
  bytes : List Nat
  deriving DecidableEq, Repr

/-- A PARITY payload: the XOR of one FEC group of chunks. -/
structure ParityPacket where
  frame_index : Nat
  group_index : Nat
  bytes : List Nat
  deriving DecidableEq, Repr

/-- The frame-carrying packets of one frame's transmission. -/
inductive FramePacket where
  | chunk (c : ChunkPacket)
  | parity (p : ParityPacket)
  deriving DecidableEq, Repr

/-- Number of chunks a `len`-byte payload splits into at chunk size `sz`. -/
def chunkCountOf (sz len : Nat) : Nat := (len + sz - 1) / sz

/-- The payload zero-padded to a whole number of `sz`-byte chunks. -/
def paddedPayload (sz : Nat) (payload : List Nat) : List Nat :=
  payload ++ List.replicate (chunkCountOf sz payload.length * sz - payload.length) 0

/-- Bytes of chunk `i` (always exactly `sz` bytes for `i < chunkCountOf`). -/
def chunkBytes (sz : Nat) (payload : List Nat) (i : Nat) : List Nat :=
  ((paddedPayload sz payload).drop (i * sz)).take sz

/-- The FRAME_CHUNK packet of chunk `i`. -/
def mkChunkPacket (fi sz : Nat) (payload : List Nat) (i : Nat) : ChunkPacket :=
  ⟨fi, i, chunkCountOf sz payload.length, payload.length,
    chunkBytes sz payload i⟩

/-- The FRAME_CHUNK packets the server emits for one frame (§4.5). -/
def chunkPackets (fi sz : Nat) (payload : List Nat) : List ChunkPacket :=
  (List.range (chunkCountOf sz payload.length)).map (mkChunkPacket fi sz payload)

/-- The chunk indices of FEC group `g` (`fec_group_size = k` consecutive
chunks per group). -/
def groupIdx (k n g : Nat) : List Nat :=
  (List.range n).filter fun j => j / k == g

/-- Number of FEC groups for `n` chunks. -/
def numGroups (k n : Nat) : Nat := (n + k - 1) / k

/-- The PARITY packet of group `g`: the bytewise XOR of the group's chunks. -/
def mkParityPacket (fi k sz : Nat) (payload : List Nat) (g : Nat) : ParityPacket :=
  ⟨fi, g, xorFold ((groupIdx k (chunkCountOf sz payload.length) g).map
    (chunkBytes sz payload))⟩

/-- The PARITY packets the server emits for one frame in satellite mode:
one per group, carrying the bytewise XOR of the group's chunks (§4.5). -/
def parityPackets (fi k sz : Nat) (payload : List Nat) : List ParityPacket :=
  (List.range (numGroups k (chunkCountOf sz payload.length))).map
    (mkParityPacket fi k sz payload)

/-- All frame-carrying packets the server emits for one frame: the chunks,
followed (in satellite mode only) by the parity packets. -/
def framePackets (fi k sz : Nat) (payload : List Nat) (satellite : Bool) :
    List FramePacket :=
  (chunkPackets fi sz payload).map .chunk ++
    (if satellite then (parityPackets fi k sz payload).map .parity else [])

/-! ### Client reassembly (§4.6) -/

/-- Per-frame reassembly state: chunk slots keyed by `chunk_index`, parity
store keyed by group index. -/
structure RState where
  slots : Nat → Option (List Nat)
  parities : Nat → Option (List Nat)

def emptyR : RState := ⟨fun _ => none, fun _ => none⟩

/-- Place one received packet: chunks fill their slot positionally (by
`chunk_index`, not arrival order), parity packets fill the parity store. -/
def insertPacket (st : RState) (p : FramePacket) : RState :=
  match p with
  | .chunk c =>
    { st with slots := fun i => if i = c.chunk_index then some c.bytes else st.slots i }
  | .parity q =>
    { st with parities := fun g => if g = q.group_index then some q.bytes else st.parities g }

/-- Fold the received packets (in arbitrary arrival order) into the state. -/
def processPackets (ps : List FramePacket) : RState := ps.foldl insertPacket emptyR

/-- Resolve chunk `i`: its slot if present, otherwise XOR-parity recovery
from the group's other members (§4.6). -/
def resolveSlot (k n : Nat) (st : RState) (i : Nat) : Option (List Nat) :=
  match st.slots i with
  | some b => some b
  | none =>
    let members := (groupIdx k n (i / k)).filter fun j => j != i
    match st.parities (i / k) with
    | some pb =>
      if members.all fun j => (st.slots j).isSome then
        some (xorB pb (xorFold (members.map fun j => (st.slots j).getD [])))
      else none
    | none => none

/-- Assemble the frame payload once every chunk slot resolves: concatenate
the `chunk_count` slots in index order and trim the padding. -/
def assembleFrame (k n total : Nat) (st : RState) : Option (List Nat) :=
  ((List.range n).mapM (resolveSlot k n st)).map fun parts =>
    parts.flatten.take total

/-- End-to-end reassembly of one frame from its received packets. -/
def receiveFrame (k n total : Nat) (ps : List FramePacket) : Option (List Nat) :=
  assembleFrame k n total (processPackets ps)

/-- The loss statistics the client accumulates (§4.6). -/
structure StreamStats where
  frames_received : Nat
  frames_dropped : Nat
  bytes_received : Nat
  deriving DecidableEq, Repr

/-- Account one frame outcome into the session statistics: a reassembled
frame counts as received, an unreconstructed one as dropped. -/
def accountFrame (st : StreamStats) (r : Option (List Nat)) : StreamStats :=
  match r with
  | some b => { st with
      frames_received := st.frames_received + 1
      bytes_received := st.bytes_received + b.length }
  | none => { st with frames_dropped := st.frames_dropped + 1 }

/-! ### Reassembly lemmas -/

theorem foldl_insert_slots_of_none (ps : List FramePacket) (st : RState) (i : Nat)
    (h : ∀ c, FramePacket.chunk c ∈ ps → c.chunk_index ≠ i) :
    (ps.foldl insertPacket st).slots i = st.slots i := by
  induction ps generalizing st with
  | nil => rfl
  | cons p ps ih =>
    rw [List.foldl_cons, ih _ (fun c hc => h c (by simp [hc]))]
    cases p with
    | chunk c =>
      have := h c (by simp)
      simp [insertPacket, this.symm]
    | parity q => rfl

theorem foldl_insert_parities_of_none (ps : List FramePacket) (st : RState) (g : Nat)
    (h : ∀ q, FramePacket.parity q ∈ ps → q.group_index ≠ g) :
    (ps.foldl insertPacket st).parities g = st.parities g := by
  induction ps generalizing st with
  | nil => rfl
  | cons p ps ih =>
    rw [List.foldl_cons, ih _ (fun q hq => h q (by simp [hq]))]
    cases p with
    | chunk c => rfl
    | parity q =>
      have := h q (by simp)
      simp [insertPacket, this.symm]

theorem foldl_insert_slots_eq (ps : List FramePacket) (st : RState) (i : Nat)
    (B : List Nat)
    (hall : ∀ c, FramePacket.chunk c ∈ ps → c.chunk_index = i → c.bytes = B)
    (hex : ∃ c, FramePacket.chunk c ∈ ps ∧ c.chunk_index = i) :
    (ps.foldl insertPacket st).slots i = some B := by
  induction ps generalizing st with
  | nil => obtain ⟨c, hc, _⟩ := hex; simp at hc
  | cons p ps ih =>
    rw [List.foldl_cons]
    by_cases hps : ∃ c, FramePacket.chunk c ∈ ps ∧ c.chunk_index = i
    · exact ih _ (fun c hc hi => hall c (by simp [hc]) hi) hps
    · obtain ⟨c, hc, hci⟩ := hex
      have hphead : p = .chunk c := by
        rcases List.mem_cons.mp hc with h | h
        · exact h.symm
        · exact absurd ⟨c, h, hci⟩ hps
      subst hphead
      rw [foldl_insert_slots_of_none ps _ i
        (fun d hd hdi => hps ⟨d, hd, hdi⟩)]
      have hb := hall c (by simp) hci
      simp [insertPacket, hci, hb]

theorem foldl_insert_parities_eq (ps : List FramePacket) (st : RState) (g : Nat)
    (B : List Nat)
    (hall : ∀ q, FramePacket.parity q ∈ ps → q.group_index = g → q.bytes = B)
    (hex : ∃ q, FramePacket.parity q ∈ ps ∧ q.group_index = g) :
    (ps.foldl insertPacket st).parities g = some B := by
  induction ps generalizing st with
  | nil => obtain ⟨q, hq, _⟩ := hex; simp at hq
  | cons p ps ih =>
    rw [List.foldl_cons]
    by_cases hps : ∃ q, FramePacket.parity q ∈ ps ∧ q.group_index = g
    · exact ih _ (fun q hq hi => hall q (by simp [hq]) hi) hps
    · obtain ⟨q, hq, hqg⟩ := hex
      have hphead : p = .parity q := by
        rcases List.mem_cons.mp hq with h | h
        · exact h.symm
        · exact absurd ⟨q, h, hqg⟩ hps
      subst hphead
      rw [foldl_insert_parities_of_none ps _ g
        (fun d hd hdg => hps ⟨d, hd, hdg⟩)]
      have hb := hall q (by simp) hqg
      simp [insertPacket, hqg, hb]

theorem mapM_eq_some_map {α β : Type} (l : List α) (f : α → Option β)
    (g : α → β) (h : ∀ x ∈ l, f x = some (g x)) : l.mapM f = some (l.map g) := by
  induction l with
  | nil => rfl
  | cons x xs ih =>
    rw [List.mapM_cons, h x (by simp), ih (fun y hy => h y (by simp [hy]))]
    rfl

theorem mapM_eq_none {α β : Type} (l : List α) (f : α → Option β) (x : α)
    (hx : x ∈ l) (hfx : f x = none) : l.mapM f = none := by
  induction l with
  | nil => simp at hx
  | cons y ys ih =>
    rw [List.mapM_cons]
    rcases List.mem_cons.mp hx with h | h
    · rw [h] at hfx
      rw [hfx]
      rfl
    · cases hfy : f y with
      | none => rfl
      | some b =>
        rw [ih h]
        rfl

/-! ### Chunk arithmetic -/

theorem le_chunkCount_mul (sz len : Nat) (hsz : 0 < sz) :
    len ≤ chunkCountOf sz len * sz := by
  rw [chunkCountOf, Nat.mul_comm]
  have hd := Nat.div_add_mod (len + sz - 1) sz
  have hm := Nat.mod_lt (len + sz - 1) hsz
  omega

theorem paddedPayload_length (sz : Nat) (payload : List Nat) (hsz : 0 < sz) :
    (paddedPayload sz payload).length =
      chunkCountOf sz payload.length * sz := by
  rw [paddedPayload]
  have := le_chunkCount_mul sz payload.length hsz
  simp only [List.length_append, List.length_replicate]
  omega

theorem chunkBytes_length (sz : Nat) (payload : List Nat) (i : Nat)
    (hsz : 0 < sz) (hi : i < chunkCountOf sz payload.length) :
    (chunkBytes sz payload i).length = sz := by
  rw [chunkBytes]
  have hP := paddedPayload_length sz payload hsz
  have hmul : (i + 1) * sz ≤ chunkCountOf sz payload.length * sz :=
    Nat.mul_le_mul_right sz hi
  rw [Nat.succ_mul] at hmul
  simp only [List.length_take, List.length_drop, hP]
  omega

theorem chunks_flatten (sz : Nat) (P : List Nat) (n : Nat) :
    ((List.range n).map fun i => (P.drop (i * sz)).take sz).flatten =
      P.take (n * sz) := by
  induction n with
  | zero => simp
  | succ n ih =>
    rw [List.range_succ, List.map_append, List.flatten_append, ih]
    simp only [List.map_cons, List.map_nil, List.flatten_cons,
      List.flatten_nil, List.append_nil]
    rw [show (n + 1) * sz = n * sz + sz by ring, List.take_add]

theorem div_lt_numGroups (k n i : Nat) (hk : 0 < k) (hi : i < n) :
    i / k < numGroups k n := by
  rw [numGroups]
  have hd := Nat.div_add_mod (n + k - 1) k
  have hm := Nat.mod_lt (n + k - 1) hk
  have hmul : n ≤ k * ((n + k - 1) / k) := by omega
  exact Nat.div_lt_of_lt_mul (by omega)

theorem mem_groupIdx (k n i : Nat) (hi : i < n) :
    i ∈ groupIdx k n (i / k) := by
  rw [groupIdx]
  simp [List.mem_filter, List.mem_range, hi]

theorem mem_of_mem_groupIdx (k n g j : Nat) (h : j ∈ groupIdx k n g) :
    j < n ∧ j / k = g := by
  rw [groupIdx] at h
  have := List.mem_filter.mp h
  simpa using this

theorem groupIdx_nodup (k n g : Nat) : (groupIdx k n g).Nodup :=
  (List.nodup_range n).filter _

/-! ### Characterization of the server's packet list -/

theorem chunk_mem_framePackets (fi k sz : Nat) (payload : List Nat)
    (sat : Bool) (i : Nat) (hi : i < chunkCountOf sz payload.length) :
    FramePacket.chunk (mkChunkPacket fi sz payload i) ∈
      framePackets fi k sz payload sat := by
  rw [framePackets]
  apply List.mem_append_left
  exact List.mem_map_of_mem _
    (by rw [chunkPackets]; exact List.mem_map_of_mem _ (List.mem_range.mpr hi))

theorem parity_mem_framePackets (fi k sz : Nat) (payload : List Nat)
    (g : Nat) (hg : g < numGroups k (chunkCountOf sz payload.length)) :
    FramePacket.parity (mkParityPacket fi k sz payload g) ∈
      framePackets fi k sz payload true := by
  rw [framePackets]
  apply List.mem_append_right
  simp only [if_true]
  exact List.mem_map_of_mem _
    (by rw [parityPackets]; exact List.mem_map_of_mem _ (List.mem_range.mpr hg))

theorem mem_framePackets_chunk (fi k sz : Nat) (payload : List Nat)
    (sat : Bool) (c : ChunkPacket)
    (h : FramePacket.chunk c ∈ framePackets fi k sz payload sat) :
    c = mkChunkPacket fi sz payload c.chunk_index ∧
      c.chunk_index < chunkCountOf sz payload.length := by
  rw [framePackets] at h
  rcases List.mem_append.mp h with h | h
  · rw [chunkPackets, List.map_map] at h
    obtain ⟨i, hi, he⟩ := List.mem_map.mp h
    simp only [Function.comp] at he
    have hc : mkChunkPacket fi sz payload i = c := by
      injection he
    constructor
    · rw [← hc]
      rfl
    · rw [← hc]
      exact List.mem_range.mp hi
  · split at h
    · rw [parityPackets, List.map_map] at h
      obtain ⟨g, _, he⟩ := List.mem_map.mp h
      simp only [Function.comp] at he
      cases he
    · simp at h

theorem mem_framePackets_parity (fi k sz : Nat) (payload : List Nat)
    (sat : Bool) (q : ParityPacket)
    (h : FramePacket.parity q ∈ framePackets fi k sz payload sat) :
    q = mkParityPacket fi k sz payload q.group_index ∧
      q.group_index < numGroups k (chunkCountOf sz payload.length) := by
  rw [framePackets] at h
  rcases List.mem_append.mp h with h | h
  · rw [chunkPackets, List.map_map] at h
    obtain ⟨i, _, he⟩ := List.mem_map.mp h
    simp only [Function.comp] at he
    cases he
  · split at h
    · rw [parityPackets, List.map_map] at h
      obtain ⟨g, hg, he⟩ := List.mem_map.mp h
      simp only [Function.comp] at he
      have hq : mkParityPacket fi k sz payload g = q := by
        injection he
      constructor
      · rw [← hq]
        rfl
      · rw [← hq]
        exact List.mem_range.mp hg
    · simp at h

theorem framePackets_nodup (fi k sz : Nat) (payload : List Nat) (sat : Bool) :
    (framePackets fi k sz payload sat).Nodup := by
  rw [framePackets]
  apply List.Nodup.append
  · rw [chunkPackets, List.map_map]
    apply List.Nodup.map _ (List.nodup_range _)
    intro a b he
    simp only [Function.comp] at he
    injection he with he'
    injection he'
  · split
    · rw [parityPackets, List.map_map]
      apply List.Nodup.map _ (List.nodup_range _)
      intro a b he
      simp only [Function.comp] at he
      injection he with he'
      injection he'
    · exact List.nodup_nil
  · intro p hp hq
    rw [chunkPackets, List.map_map] at hp
    obtain ⟨i, _, hei⟩ := List.mem_map.mp hp
    split at hq
    · rw [parityPackets, List.map_map] at hq
      obtain ⟨g, _, heg⟩ := List.mem_map.mp hq
      rw [← hei] at heg
      simp only [Function.comp] at heg
      cases heg
    · simp at hq

theorem count_chunk_framePackets (fi k sz : Nat) (payload : List Nat)
    (sat : Bool) (i : Nat) (hi : i < chunkCountOf sz payload.length) :
    (framePackets fi k sz payload sat).count
      (FramePacket.chunk (mkChunkPacket fi sz payload i)) = 1 :=
  List.count_eq_one_of_mem (framePackets_nodup fi k sz payload sat)
    (chunk_mem_framePackets fi k sz payload sat i hi)

theorem count_parity_framePackets (fi k sz : Nat) (payload : List Nat)
    (g : Nat) (hg : g < numGroups k (chunkCountOf sz payload.length)) :
    (framePackets fi k sz payload true).count
      (FramePacket.parity (mkParityPacket fi k sz payload g)) = 1 :=
  List.count_eq_one_of_mem (framePackets_nodup fi k sz payload true)
    (parity_mem_framePackets fi k sz payload g hg)

/-! ### Slot contents after processing a received packet list -/

theorem slots_some_of_received (fi k sz : Nat) (payload : List Nat)
    (sat : Bool) (ps : List FramePacket) (i : Nat)
    (hsub : ∀ p ∈ ps, p ∈ framePackets fi k sz payload sat)
    (hin : FramePacket.chunk (mkChunkPacket fi sz payload i) ∈ ps) :
    (processPackets ps).slots i = some (chunkBytes sz payload i) := by
  apply foldl_insert_slots_eq
  · intro c hc hci
    have hch := (mem_framePackets_chunk fi k sz payload sat c (hsub _ hc)).1
    rw [hch, hci]
    rfl
  · exact ⟨_, hin, rfl⟩

theorem parities_some_of_received (fi k sz : Nat) (payload : List Nat)
    (ps : List FramePacket) (g : Nat)
    (hsub : ∀ p ∈ ps, p ∈ framePackets fi k sz payload true)
    (hin : FramePacket.parity (mkParityPacket fi k sz payload g) ∈ ps) :
    (processPackets ps).parities g =
      some (xorFold ((groupIdx k (chunkCountOf sz payload.length) g).map
        (chunkBytes sz payload))) := by
  apply foldl_insert_parities_eq
  · intro q hq hqg
    have hch := (mem_framePackets_parity fi k sz payload true q (hsub _ hq)).1
    rw [hch, hqg]
    rfl
  · exact ⟨_, hin, rfl⟩

theorem slots_none_of_received (fi k sz : Nat) (payload : List Nat)
    (sat : Bool) (ps : List FramePacket) (i : Nat)
    (hsub : ∀ p ∈ ps, p ∈ framePackets fi k sz payload sat)
    (hnotin : FramePacket.chunk (mkChunkPacket fi sz payload i) ∉ ps) :
    (processPackets ps).slots i = none := by
  rw [processPackets, foldl_insert_slots_of_none]
  · rfl
  · intro c hc hci
    have hch := (mem_framePackets_chunk fi k sz payload sat c (hsub _ hc)).1
    rw [hci] at hch
    exact hnotin (hch ▸ hc)

theorem parities_none_of_received (fi k sz : Nat) (payload : List Nat)
    (ps : List FramePacket) (g : Nat)
    (hsub : ∀ p ∈ ps, p ∈ framePackets fi k sz payload true)
    (hnotin : FramePacket.parity (mkParityPacket fi k sz payload g) ∉ ps) :
    (processPackets ps).parities g = none := by
  rw [processPackets, foldl_insert_parities_of_none]
  · rfl
  · intro q hq hqg
    have hch := (mem_framePackets_parity fi k sz payload true q (hsub _ hq)).1
    rw [hqg] at hch
    exact hnotin (hch ▸ hq)

theorem resolveSlot_of_slot (k n : Nat) (st : RState) (i : Nat) (b : List Nat)
    (h : st.slots i = some b) : resolveSlot k n st i = some b := by
  rw [resolveSlot, h]

/-- XOR-parity recovery of one missing slot from the group's other members
and the group's parity. -/
theorem resolveSlot_recover (k n sz : Nat) (payload : List Nat) (st : RState)
    (i : Nat) (hsz : 0 < sz) (hn : n = chunkCountOf sz payload.length)
    (hi : i < n) (hslot : st.slots i = none)
    (hpar : st.parities (i / k) =
      some (xorFold ((groupIdx k n (i / k)).map (chunkBytes sz payload))))
    (hothers : ∀ j, j < n → j ≠ i → st.slots j = some (chunkBytes sz payload j)) :
    resolveSlot k n st i = some (chunkBytes sz payload i) := by
  rw [resolveSlot, hslot]
  simp only [hpar]
  have hall : ((groupIdx k n (i / k)).filter fun j => j != i).all
      (fun j => (st.slots j).isSome) = true := by
    rw [List.all_eq_true]
    intro j hj
    have hjm := List.mem_filter.mp hj
    have hjn := (mem_of_mem_groupIdx k n (i / k) j hjm.1).1
    have hji : j ≠ i := by simpa using hjm.2
    rw [hothers j hjn hji]
    rfl
  rw [if_pos hall]
  have hmap : ((groupIdx k n (i / k)).filter fun j => j != i).map
      (fun j => (st.slots j).getD []) =
      ((groupIdx k n (i / k)).filter fun j => j != i).map
        (chunkBytes sz payload) := by
    apply List.map_congr_left
    intro j hj
    have hjm := List.mem_filter.mp hj
    have hjn := (mem_of_mem_groupIdx k n (i / k) j hjm.1).1
    have hji : j ≠ i := by simpa using hjm.2
    rw [hothers j hjn hji]
    rfl
  rw [hmap]
  have hfilter : (groupIdx k n (i / k)).filter (fun j => j != i) =
      (groupIdx k n (i / k)).erase i :=
    ((groupIdx_nodup k n (i / k)).erase_eq_filter i).symm
  rw [hfilter]
  congr 1
  exact xor_recover (groupIdx k n (i / k)) (chunkBytes sz payload) i sz
    (mem_groupIdx k n i (hn ▸ hi))
    (fun j hj => chunkBytes_length sz payload j hsz
      (hn ▸ (mem_of_mem_groupIdx k n (i / k) j hj).1))

/-- Assembling when every slot resolves to its chunk yields the payload. -/
theorem assemble_resolved (k n total sz : Nat) (payload : List Nat)
    (st : RState) (hn : n = chunkCountOf sz payload.length)
    (htot : total = payload.length) (hsz : 0 < sz)
    (hres : ∀ i, i < n → resolveSlot k n st i = some (chunkBytes sz payload i)) :
    assembleFrame k n total st = some payload := by
  rw [assembleFrame]
  rw [mapM_eq_some_map (List.range n) _ (chunkBytes sz payload)
    (fun i hi => hres i (List.mem_range.mp hi))]
  rw [Option.map_some']
  congr 1
  have hflat : ((List.range n).map (chunkBytes sz payload)).flatten =
      (paddedPayload sz payload).take (n * sz) := by
    rw [show (List.range n).map (chunkBytes sz payload) =
      (List.range n).map fun i => ((paddedPayload sz payload).drop (i * sz)).take sz
      from rfl]
    exact chunks_flatten sz (paddedPayload sz payload) n
  rw [hflat]
  have hP : (paddedPayload sz payload).length = n * sz := by
    rw [hn]
    exact paddedPayload_length sz payload hsz
  rw [List.take_of_length_le (le_of_eq hP)]
  rw [paddedPayload, htot]
  simp

/-! ### Top-level streaming results -/

theorem mkChunkPacket_index (fi sz : Nat) (payload : List Nat) (i : Nat) :
    (mkChunkPacket fi sz payload i).chunk_index = i := rfl

theorem framePackets_cases (fi k sz : Nat) (payload : List Nat) (sat : Bool)
    (p : FramePacket) (hp : p ∈ framePackets fi k sz payload sat) :
    (∃ j, j < chunkCountOf sz payload.length ∧
        p = .chunk (mkChunkPacket fi sz payload j)) ∨
    (∃ g, g < numGroups k (chunkCountOf sz payload.length) ∧
        p = .parity (mkParityPacket fi k sz payload g)) := by
  cases p with
  | chunk c =>
    obtain ⟨hform, hlt⟩ := mem_framePackets_chunk fi k sz payload sat c hp
    exact Or.inl ⟨c.chunk_index, hlt, by rw [← hform]⟩
  | parity q =>
    obtain ⟨hform, hlt⟩ := mem_framePackets_parity fi k sz payload sat q hp
    exact Or.inr ⟨q.group_index, hlt, by rw [← hform]⟩

/-- Chunk reassembly is order-independent: any permutation of the emitted
packets reassembles to the original payload. -/
theorem receiveFrame_perm (fi k sz : Nat) (payload : List Nat) (sat : Bool)
    (ps : List FramePacket) (hsz : 0 < sz)
    (hperm : ps.Perm (framePackets fi k sz payload sat)) :
    receiveFrame k (chunkCountOf sz payload.length) payload.length ps =
      some payload := by
  rw [receiveFrame]
  apply assemble_resolved _ _ _ sz payload _ rfl rfl hsz
  intro i hi
  apply resolveSlot_of_slot
  apply slots_some_of_received fi k sz payload sat ps i
  · intro x hx
    exact hperm.mem_iff.mp hx
  · exact hperm.mem_iff.mpr (chunk_mem_framePackets fi k sz payload sat i hi)

/-- Losing any single packet of the satellite-mode transmission still
reassembles the payload exactly. -/
theorem receiveFrame_erase_one (fi k sz : Nat) (payload : List Nat)
    (hsz : 0 < sz) (hk : 0 < k) (p : FramePacket)
    (hp : p ∈ framePackets fi k sz payload true) :
    receiveFrame k (chunkCountOf sz payload.length) payload.length
      ((framePackets fi k sz payload true).erase p) = some payload := by
  have hsub : ∀ x ∈ (framePackets fi k sz payload true).erase p,
      x ∈ framePackets fi k sz payload true :=
    fun x hx => (List.erase_sublist p _).subset hx
  rw [receiveFrame]
  apply assemble_resolved _ _ _ sz payload _ rfl rfl hsz
  intro i hi
  rcases framePackets_cases fi k sz payload true p hp with ⟨j, hj, rfl⟩ | ⟨g, hg, rfl⟩
  · by_cases hij : i = j
    · -- the lost chunk: XOR-parity recovery
      subst hij
      apply resolveSlot_recover k _ sz payload _ i hsz rfl hi
      · apply slots_none_of_received fi k sz payload true _ i hsub
        intro hmem
        have hc0 : ((framePackets fi k sz payload true).erase
            (FramePacket.chunk (mkChunkPacket fi sz payload i))).count
            (FramePacket.chunk (mkChunkPacket fi sz payload i)) = 0 := by
          rw [List.count_erase_self,
            count_chunk_framePackets fi k sz payload true i hi]
        have := List.count_pos_iff.mpr hmem
        omega
      · apply parities_some_of_received fi k sz payload _ (i / k) hsub
        apply (List.mem_erase_of_ne (by simp)).mpr
        exact parity_mem_framePackets fi k sz payload (i / k)
          (div_lt_numGroups k _ i hk hi)
      · intro j' hj' hji
        apply slots_some_of_received fi k sz payload true _ j' hsub
        apply (List.mem_erase_of_ne ?_).mpr
        · exact chunk_mem_framePackets fi k sz payload true j' hj'
        · intro he
          injection he with he'
          exact hji (by
            have := congrArg ChunkPacket.chunk_index he'
            simpa [mkChunkPacket] using this)
    · apply resolveSlot_of_slot
      apply slots_some_of_received fi k sz payload true _ i hsub
      apply (List.mem_erase_of_ne ?_).mpr
      · exact chunk_mem_framePackets fi k sz payload true i hi
      · intro he
        injection he with he'
        exact hij (by
          have := congrArg ChunkPacket.chunk_index he'
          simpa [mkChunkPacket] using this)
  · -- the lost packet is a parity: every chunk slot is still filled
    apply resolveSlot_of_slot
    apply slots_some_of_received fi k sz payload true _ i hsub
    apply (List.mem_erase_of_ne (by simp)).mpr
    exact chunk_mem_framePackets fi k sz payload true i hi

/-- With two chunks of one FEC group lost, the client cannot reconstruct
the frame. -/
theorem receiveFrame_two_chunks_lost (fi k sz : Nat) (payload : List Nat)
    (i1 i2 : Nat) (h1 : i1 < chunkCountOf sz payload.length)
    (h2 : i2 < chunkCountOf sz payload.length) (hne : i1 ≠ i2)
    (hgrp : i1 / k = i2 / k) :
    receiveFrame k (chunkCountOf sz payload.length) payload.length
      (((framePackets fi k sz payload true).erase
          (.chunk (mkChunkPacket fi sz payload i1))).erase
        (.chunk (mkChunkPacket fi sz payload i2))) = none := by
  set n := chunkCountOf sz payload.length with hn
  set ps := ((framePackets fi k sz payload true).erase
      (.chunk (mkChunkPacket fi sz payload i1))).erase
    (.chunk (mkChunkPacket fi sz payload i2)) with hps
  have hsub : ∀ x ∈ ps, x ∈ framePackets fi k sz payload true := fun x hx =>
    (List.erase_sublist _ _).subset ((List.erase_sublist _ _).subset hx)
  have hC1ne : (FramePacket.chunk (mkChunkPacket fi sz payload i1)) ≠
      (FramePacket.chunk (mkChunkPacket fi sz payload i2)) := by
    intro he
    injection he with he'
    exact hne (by
      have := congrArg ChunkPacket.chunk_index he'
      simpa [mkChunkPacket] using this)
  have hs1 : (processPackets ps).slots i1 = none := by
    apply slots_none_of_received fi k sz payload true _ i1 hsub
    intro hmem
    have hc0 : ps.count (FramePacket.chunk (mkChunkPacket fi sz payload i1)) = 0 := by
      rw [hps, List.count_erase_of_ne hC1ne, List.count_erase_self,
        count_chunk_framePackets fi k sz payload true i1 h1]
    have := List.count_pos_iff.mpr hmem
    omega
  have hs2 : (processPackets ps).slots i2 = none := by
    apply slots_none_of_received fi k sz payload true _ i2 hsub
    intro hmem
    have hc0 : ps.count (FramePacket.chunk (mkChunkPacket fi sz payload i2)) = 0 := by
      rw [hps, List.count_erase_self, List.count_erase_of_ne hC1ne.symm,
        count_chunk_framePackets fi k sz payload true i2 h2]
    have := List.count_pos_iff.mpr hmem
    omega
  have hres : resolveSlot k n (processPackets ps) i1 = none := by
    rw [resolveSlot, hs1]
    have hmem2 : i2 ∈ (groupIdx k n (i1 / k)).filter fun j => j != i1 := by
      rw [List.mem_filter]
      constructor
      · rw [hgrp]
        exact mem_groupIdx k n i2 h2
      · simpa using hne.symm
    cases hpar : (processPackets ps).parities (i1 / k) with
    | none => simp [hpar]
    | some pb =>
      simp only [hpar]
      rw [if_neg]
      intro hall
      have := List.all_eq_true.mp hall i2 hmem2
      rw [hs2] at this
      simp at this
  rw [receiveFrame, assembleFrame,
    mapM_eq_none (List.range n) _ i1 (List.mem_range.mpr h1) hres]
  rfl

/-- With one chunk and its group's parity both lost, the client cannot
reconstruct the frame. -/
theorem receiveFrame_chunk_parity_lost (fi k sz : Nat) (payload : List Nat)
    (hk : 0 < k) (j : Nat) (hj : j < chunkCountOf sz payload.length) :
    receiveFrame k (chunkCountOf sz payload.length) payload.length
      (((framePackets fi k sz payload true).erase
          (.chunk (mkChunkPacket fi sz payload j))).erase
        (.parity (mkParityPacket fi k sz payload (j / k)))) = none := by
  set n := chunkCountOf sz payload.length with hn
  set ps := ((framePackets fi k sz payload true).erase
      (.chunk (mkChunkPacket fi sz payload j))).erase
    (.parity (mkParityPacket fi k sz payload (j / k))) with hps
  have hsub : ∀ x ∈ ps, x ∈ framePackets fi k sz payload true := fun x hx =>
    (List.erase_sublist _ _).subset ((List.erase_sublist _ _).subset hx)
  have hCPne : (FramePacket.chunk (mkChunkPacket fi sz payload j)) ≠
      (FramePacket.parity (mkParityPacket fi k sz payload (j / k))) := by simp
  have hsj : (processPackets ps).slots j = none := by
    apply slots_none_of_received fi k sz payload true _ j hsub
    intro hmem
    have hc0 : ps.count (FramePacket.chunk (mkChunkPacket fi sz payload j)) = 0 := by
      rw [hps, List.count_erase_of_ne hCPne, List.count_erase_self,
        count_chunk_framePackets fi k sz payload true j hj]
    have := List.count_pos_iff.mpr hmem
    omega
  have hpj : (processPackets ps).parities (j / k) = none := by
    apply parities_none_of_received fi k sz payload _ (j / k) hsub
    intro hmem
    have hc0 : ps.count (FramePacket.parity (mkParityPacket fi k sz payload (j / k))) = 0 := by
      rw [hps, List.count_erase_self, List.count_erase_of_ne hCPne.symm,
        count_parity_framePackets fi k sz payload (j / k)
          (div_lt_numGroups k n j hk hj)]
    have := List.count_pos_iff.mpr hmem
    omega
  have hres : resolveSlot k n (processPackets ps) j = none := by
    rw [resolveSlot, hsj]
    simp [hpj]
  rw [receiveFrame, assembleFrame,
    mapM_eq_none (List.range n) _ j (List.mem_range.mpr hj) hres]
  rfl

theorem range_filter_beq (N g : Nat) (h : g < N) :
    (List.range N).filter (fun x => x == g) = [g] := by
  induction N with
  | zero => omega
  | succ N ih =>
    rw [List.range_succ, List.filter_append]
    rcases Nat.lt_or_ge g N with hlt | hge
    · rw [ih hlt]
      have : (N == g) = false := by
        simp
        omega
      simp [this]
    · have hgN : g = N := by omega
      subst hgN
      have hnil : (List.range g).filter (fun x => x == g) = [] := by
        rw [List.filter_eq_nil_iff]
        intro x hx
        have := List.mem_range.mp hx
        simp
        omega
      simp [hnil]

/-- Whether a frame packet is the PARITY packet of group `g`. -/
def isParityOf (g : Nat) (p : FramePacket) : Bool :=
  match p with
  | .parity q => q.group_index == g
  | .chunk _ => false

/-- In satellite mode the server emits exactly one PARITY packet per FEC
group, and its payload is the bytewise XOR of the group's chunks. -/
theorem framePackets_parity_filter (fi k sz : Nat) (payload : List Nat)
    (g : Nat) (hg : g < numGroups k (chunkCountOf sz payload.length)) :
    (framePackets fi k sz payload true).filter (isParityOf g) =
      [.parity (mkParityPacket fi k sz payload g)] := by
  rw [framePackets, List.filter_append]
  have hchunks : ((chunkPackets fi sz payload).map FramePacket.chunk).filter
      (isParityOf g) = [] := by
    rw [List.filter_eq_nil_iff]
    intro x hx
    obtain ⟨c, _, rfl⟩ := List.mem_map.mp hx
    simp [isParityOf]
  rw [hchunks]
  simp only [if_true, List.nil_append]
  rw [parityPackets, List.filter_map]
  have hcomp : (isParityOf g ∘ fun q => FramePacket.parity q) = fun q =>
      q.group_index == g := by
    funext q
    rfl
  rw [hcomp, List.filter_map]
  have hcomp2 : ((fun q => q.group_index == g) ∘ mkParityPacket fi k sz payload)
      = fun x => x == g := by
    funext x
    rfl
  rw [hcomp2, range_filter_beq _ g hg]
  rfl

/-! ## CLI dispatch (`sanchez/__main__.py`)

These definitions embed the dispatch logic of `cmd_encode`, `cmd_decode`,
`cmd_stream_serve` and `cmd_stream_receive`.  Paths are modelled as plain
strings with `pathlib`-style `name`/`suffix`/`with_suffix` semantics
(no path normalization, which the dispatch logic does not rely on). -/

/-- `pathlib.PurePath.name`: the final path component. -/
def pyName (s : String) : String :=
  ⟨(s.data.reverse.takeWhile (· ≠ '/')).reverse⟩

/-- `pathlib.PurePath.suffix`: the extension of the final component,
including the dot; empty when the final component has no inner dot
(a leading or trailing dot yields no suffix). -/
def pySuffix (s : String) : String :=
  let name := (pyName s).data
  let tail := name.reverse.takeWhile (· ≠ '.')
  if 0 < tail.length ∧ tail.length + 1 < name.length then
    ⟨'.' :: tail.reverse⟩
  else ""

/-- `pathlib.PurePath.with_suffix`: replace (or append) the suffix. -/
def pyWithSuffix (s : String) (suf : String) : String :=
  ⟨s.data.take (s.data.length - (pySuffix s).data.length) ++ suf.data⟩

/-- `str.lower()` (ASCII). -/
def pyLower (s : String) : String := ⟨s.data.map Char.toLower⟩

/-- `image_extensions` of `cmd_encode` (`sanchez/__main__.py:41`). -/
def imageExtensionList : List String :=
  [".png", ".jpg", ".jpeg", ".bmp", ".gif", ".tiff"]

/-- Which encoder entry point `cmd_encode` calls. -/
inductive EncodeCall where
  | image
  | video (use_compression : Bool)
  deriving DecidableEq, Repr

/-- The dispatch of `cmd_encode` (`sanchez/__main__.py:43-60`): image paths
go to `encode_image`, everything else to `encode` with
`use_compression = not args.no_compression`. -/
def cmdEncodeDispatch (input : String) (noCompression : Bool) : EncodeCall :=
  if pyLower (pySuffix input) ∈ imageExtensionList then .image
  else .video (!noCompression)

/-- The output path `cmd_encode` uses (`sanchez/__main__.py:26-30`). -/
def cmdEncodeOutput (input : String) (output : Option String) : String :=
  match output with
  | some o => o
  | none => pyWithSuffix input ".sanchez"

/-- Which decoder entry point `cmd_decode` calls, with the output path it
passes. -/
inductive DecodeCall where
  | toImage (out : String)
  | extractAll (outDir : String)
  | toVideo (out : String)
  deriving DecidableEq, Repr

/-- The dispatch of `cmd_decode` (`sanchez/__main__.py:63-109`): a single
frame goes to `decode_to_image` (default output `<input>.png`), `--frames`
extracts all frames (default directory `<input-without-suffix>_frames`),
otherwise the file is decoded to video (default output `<input>.mp4`). -/
def cmdDecodeDispatch (input : String) (output : Option String)
    (frame : Option Nat) (frames : Bool) : DecodeCall :=
  let out0 := match output with
    | some o => o
    | none => pyWithSuffix input ".mp4"
  match frame with
  | some _ =>
    .toImage (match output with
      | some o => o
      | none => pyWithSuffix input ".png")
  | none =>
    if frames then
      .extractAll (match output with
        | some o => o
        | none => pyWithSuffix input "" ++ "_frames")
    else .toVideo out0

/-- `StreamMode` re-exported by `sanchez/__init__.py`. -/
inductive StreamMode where
  | TCP_UNICAST | UDP_UNICAST | UDP_MULTICAST | UDP_BROADCAST
  deriving DecidableEq, Repr

/-- `mode_map.get(args.mode.lower(), StreamMode.TCP_UNICAST)` of
`cmd_stream_serve` (`sanchez/__main__.py:161-167`). -/
def serveStreamMode (mode : String) : StreamMode :=
  let t := pyLower mode
  if t = "tcp" then .TCP_UNICAST
  else if t = "udp" then .UDP_UNICAST
  else if t = "multicast" then .UDP_MULTICAST
  else if t = "broadcast" then .UDP_BROADCAST
  else .TCP_UNICAST

/-- The identical mode lookup of `cmd_stream_receive`
(`sanchez/__main__.py:195-201`). -/
def receiveStreamMode (mode : String) : StreamMode :=
  let t := pyLower mode
  if t = "tcp" then .TCP_UNICAST
  else if t = "udp" then .UDP_UNICAST
  else if t = "multicast" then .UDP_MULTICAST
  else if t = "broadcast" then .UDP_BROADCAST
  else .TCP_UNICAST

/-- A successful authoring run implies every appended buffer had the
declared dimensions. -/
theorem build_ok_lengths (bufs : List (List Nat)) (f₀ f : SanchezFile)
    (h : bufs.foldlM append_frame f₀ = .ok f) :
    ∀ b ∈ bufs, b.length = f₀.config.width * f₀.config.height * 3 := by
  induction bufs generalizing f₀ with
  | nil => simp
  | cons b bs ih =>
    by_cases hlen : b.length = f₀.config.width * f₀.config.height * 3
    · intro x hx
      rcases List.mem_cons.mp hx with rfl | hx'
      · exact hlen
      · have happ : append_frame f₀ b = .ok { f₀ with
            config := { f₀.config with frame_count := f₀.config.frame_count + 1 }
            index := f₀.index ++ [⟨f₀.index.length, f₀.payload.length,
              (compressBytes f₀.config.compression_enabled b).length, b.length,
              crc32 (compressBytes f₀.config.compression_enabled b)⟩]
            payload := f₀.payload ++ compressBytes f₀.config.compression_enabled b } := by
          simp [append_frame, hlen]
        rw [List.foldlM_cons, happ] at h
        exact ih _ h x hx'
    · exfalso
      have happ : append_frame f₀ b = .error .DimensionMismatch := by
        simp [append_frame, hlen]
      rw [List.foldlM_cons, happ] at h
      cases h

/-- The Frame Record of frame `i` in a built container, proof-free form. -/
def builtRecord (comp : Bool) (bufs : List (List Nat)) (i : Nat) : FrameRecord :=
  ⟨i, ((bufs.take i).map fun b => (compressBytes comp b).length).sum,
    (compressBytes comp (bufs.getD i [])).length,
    (bufs.getD i []).length,
    crc32 (compressBytes comp (bufs.getD i []))⟩

theorem builtFile_index_get (title creator : List Nat) (width height : Nat)
    (comp : Bool) (ca : Nat) (bufs : List (List Nat)) (i : Nat)
    (hi : i < bufs.length)
    (hi' : i < (builtFile title creator width height comp ca bufs).index.length) :
    (builtFile title creator width height comp ca bufs).index.get ⟨i, hi'⟩ =
      builtRecord comp bufs i := by
  have hrec := recordsFrom_get comp 0 0 bufs i hi
  have hgd : bufs.getD i [] = bufs.get ⟨i, hi⟩ := by
    rw [List.getD_eq_getElem bufs [] hi]
    rfl
  show (recordsFrom comp 0 0 bufs).get _ = _
  rw [hrec, builtRecord, hgd]
  simp

/-- Demo data: the 10-frame solid-colour 4×4 scenario of spec §8. -/
def demoBufs : List (List Nat) := List.replicate 10 (List.replicate 48 9)

/-- The container the demo scenario builds. -/
def demoFile : SanchezFile := builtFile [84] [99] 4 4 true 0 demoBufs

/-! ## Claim theorems -/

/-- C1: a container created via `create`, filled by appending `N` valid
frames in order, saved and reopened, reports `frame_count = N` and returns
every appended buffer byte-exactly from `get_frame`. -/
theorem claim_C1_container_roundtrip (title creator : List Nat)
    (width height : Nat) (comp : Bool) (ca : Nat) (bufs : List (List Nat))
    (f g : SanchezFile)
    (hmeta : title.length + creator.length + 16 < 2 ^ 32) (hca : ca < 2 ^ 64)
    (hw : width < 2 ^ 32) (hh : height < 2 ^ 32) (hN : bufs.length < 2 ^ 32)
    (hwh : width * height * 3 < 2 ^ 31)
    (hbytes : ∀ b ∈ bufs, ∀ x ∈ b, x < 256)
    (hbuild : buildContainer title creator width height comp ca bufs = .ok f)
    (hopen : openFile (save f) = .ok g) :
    g.frameCount = bufs.length ∧
      ∀ i (h : i < bufs.length), get_frame g i = .ok (bufs.get ⟨i, h⟩) := by
  have hlen : ∀ b ∈ bufs, b.length = width * height * 3 := by
    have := build_ok_lengths bufs _ f hbuild
    simpa [SanchezFile.create] using this
  rw [buildContainer_eq title creator width height comp ca bufs hlen] at hbuild
  injection hbuild with hf
  subst hf
  rw [openFile_save _
    (builtFile_fileBounds title creator width height comp ca bufs
      hmeta hca hw hh hN hwh hlen hbytes)
    (builtFile_indexPositional title creator width height comp ca bufs)] at hopen
  injection hopen with hg
  subst hg
  exact ⟨rfl, fun i h =>
    get_frame_built title creator width height comp ca bufs i h⟩

set_option maxRecDepth 100000 in
/-- C1 witness: the spec §8 scenario — 10 solid-colour 4×4 frames, saved
and reopened: `frame_count = 10` and frame 0 is returned byte-exactly. -/
theorem claim_C1_container_roundtrip_witness :
    demoFile.frameCount = 10 ∧
      get_frame demoFile 0 = .ok (List.replicate 48 9) := by
  have h := claim_C1_container_roundtrip [84] [99] 4 4 true 0 demoBufs
    demoFile demoFile (by decide) (by decide) (by decide) (by decide)
    (by decide) (by decide) (by decide) (by decide) (by decide)
  refine ⟨h.1, ?_⟩
  have h2 := h.2 0 (by decide)
  simpa [demoBufs] using h2

/-- C4: for every raw buffer `x`, `decompress(compress(x), len(x)) == x`,
with `compression_enabled` true or false; when it is false, `compress` is
the identity and `decompress` returns the buffer unchanged. -/
theorem claim_C4_codec_roundtrip (enabled : Bool) (x : List Nat) :
    decompressBytes enabled (compressBytes enabled x) x.length = .ok x ∧
    compressBytes false x = x ∧
    decompressBytes false x x.length = .ok x :=
  ⟨decompress_compress enabled x, rfl, by simp [decompressBytes]⟩

/-- C5: `append_frame` fails with `DimensionMismatch` exactly when the
buffer size differs from `width × height × 3`; the error return leaves the
container value untouched, and on success exactly one Frame Record with a
freshly computed checksum is appended and `frame_count` grows by one. -/
theorem claim_C5_append_frame (f : SanchezFile) (buf : List Nat) :
    (append_frame f buf = .error .DimensionMismatch ↔
      buf.length ≠ f.config.width * f.config.height * 3) ∧
    (buf.length = f.config.width * f.config.height * 3 →
      append_frame f buf = .ok { f with
        config := { f.config with frame_count := f.config.frame_count + 1 }
        index := f.index ++ [⟨f.index.length, f.payload.length,
          (compressBytes f.config.compression_enabled buf).length, buf.length,
          crc32 (compressBytes f.config.compression_enabled buf)⟩]
        payload := f.payload ++ compressBytes f.config.compression_enabled buf }) := by
  constructor
  · constructor
    · intro he hlen
      rw [append_frame, if_pos hlen] at he
      cases he
    · intro hne
      rw [append_frame, if_neg hne]
  · intro hlen
    rw [append_frame, if_pos hlen]

/-- C5 witness: a wrong-sized buffer is rejected and a right-sized buffer
is appended, on a concrete 1×1 container. -/
theorem claim_C5_append_frame_witness :
    (append_frame (SanchezFile.create [84] [99] 1 1 false 0) [1, 2] =
      .error .DimensionMismatch) ∧
    (append_frame (SanchezFile.create [84] [99] 1 1 false 0) [1, 2, 3] =
      .ok { SanchezFile.create [84] [99] 1 1 false 0 with
        config := { (SanchezFile.create [84] [99] 1 1 false 0).config with
          frame_count := 1 }
        index := [⟨0, 0, 3, 3, crc32 [1, 2, 3]⟩]
        payload := [1, 2, 3] }) := by
  constructor
  · exact (claim_C5_append_frame (SanchezFile.create [84] [99] 1 1 false 0)
      [1, 2]).1.mpr (by decide)
  · have h := (claim_C5_append_frame (SanchezFile.create [84] [99] 1 1 false 0)
      [1, 2, 3]).2 (by decide)
    rw [h]
    rfl

/-- C8: the CLI `encode` command dispatches to `encode_image` exactly when
the input path's lowercased suffix is one of the image extensions, and
otherwise to `encode` with `use_compression = not --no-compression`. -/
theorem claim_C8_encode_dispatch (input : String) (noCompression : Bool) :
    (cmdEncodeDispatch input noCompression = .image ↔
      pyLower (pySuffix input) ∈ imageExtensionList) ∧
    (pyLower (pySuffix input) ∉ imageExtensionList →
      cmdEncodeDispatch input noCompression = .video (!noCompression)) := by
  constructor
  · constructor
    · intro he
      by_contra hmem
      rw [cmdEncodeDispatch, if_neg hmem] at he
      cases he
    · intro hmem
      rw [cmdEncodeDispatch, if_pos hmem]
  · intro hmem
    rw [cmdEncodeDispatch, if_neg hmem]

/-- C8 witness: `photo.PNG` dispatches to `encode_image`; `clip.mp4`
dispatches to `encode`, with and without `--no-compression`. -/
theorem claim_C8_encode_dispatch_witness :
    cmdEncodeDispatch "photo.PNG" false = .image ∧
    cmdEncodeDispatch "clip.mp4" false = .video true ∧
    cmdEncodeDispatch "clip.mp4" true = .video false := by
  refine ⟨(claim_C8_encode_dispatch "photo.PNG" false).1.mpr (by decide),
    (claim_C8_encode_dispatch "clip.mp4" false).2 (by decide),
    (claim_C8_encode_dispatch "clip.mp4" true).2 (by decide)⟩

/-- C9: when no output path is supplied the CLI derives it by suffix
replacement: `encode` writes `<input>.sanchez`; `decode` writes
`<input>.mp4` for video, `<input>.png` for a single `--frame`, and the
directory `<input-without-suffix>_frames` for `--frames`. -/
theorem claim_C9_default_outputs (input : String) (fr : Nat) :
    cmdEncodeOutput input none = pyWithSuffix input ".sanchez" ∧
    cmdDecodeDispatch input none none false =
      .toVideo (pyWithSuffix input ".mp4") ∧
    cmdDecodeDispatch input none (some fr) false =
      .toImage (pyWithSuffix input ".png") ∧
    cmdDecodeDispatch input none none true =
      .extractAll (pyWithSuffix input "" ++ "_frames") :=
  ⟨rfl, rfl, rfl, rfl⟩

/-- C3: a frame payload larger than the transport's safe size, split into
FRAME_CHUNK packets, is reassembled byte-exactly by the client from any
permutation of the delivery order (placement is by `chunk_index`). -/
theorem claim_C3_reassembly_any_order (fi k sz : Nat) (payload : List Nat)
    (sat : Bool) (ps : List FramePacket) (hsz : 0 < sz)
    (hbig : sz < payload.length)
    (hperm : ps.Perm (framePackets fi k sz payload sat)) :
    receiveFrame k (chunkCountOf sz payload.length) payload.length ps =
      some payload :=
  receiveFrame_perm fi k sz payload sat ps hsz hperm

/-- C3 witness: a 5-byte payload split into 2-byte chunks, delivered in
reverse order, reassembles exactly. -/
theorem claim_C3_reassembly_any_order_witness :
    0 < 2 ∧ 2 < ([1, 2, 3, 4, 5] : List Nat).length ∧
    receiveFrame 2 (chunkCountOf 2 ([1, 2, 3, 4, 5] : List Nat).length)
      ([1, 2, 3, 4, 5] : List Nat).length
      (framePackets 0 2 2 [1, 2, 3, 4, 5] false).reverse =
      some [1, 2, 3, 4, 5] :=
  ⟨by decide, by decide,
    claim_C3_reassembly_any_order 0 2 2 [1, 2, 3, 4, 5] false _
      (by decide) (by decide) ((framePackets 0 2 2 [1, 2, 3, 4, 5] false).reverse_perm)⟩

/-- C2: in satellite mode the server sends, per FEC group, exactly one
PARITY packet carrying the bytewise XOR of the group's chunks; losing any
single packet of the transmission still reassembles the frame exactly,
while losing two packets of one group (two chunks, or a chunk plus its
group's parity) leaves the frame unreconstructed, which the statistics
account as one more dropped frame. -/
theorem claim_C2_fec (fi k sz : Nat) (payload : List Nat) (s : StreamStats)
    (hsz : 0 < sz) (hk : 0 < k) :
    (∀ g, g < numGroups k (chunkCountOf sz payload.length) →
      (framePackets fi k sz payload true).filter (isParityOf g) =
        [.parity (mkParityPacket fi k sz payload g)] ∧
      (mkParityPacket fi k sz payload g).bytes =
        xorFold ((groupIdx k (chunkCountOf sz payload.length) g).map
          (chunkBytes sz payload))) ∧
    (∀ p ∈ framePackets fi k sz payload true,
      receiveFrame k (chunkCountOf sz payload.length) payload.length
        ((framePackets fi k sz payload true).erase p) = some payload) ∧
    (∀ i1 i2, i1 < chunkCountOf sz payload.length →
      i2 < chunkCountOf sz payload.length → i1 ≠ i2 → i1 / k = i2 / k →
      receiveFrame k (chunkCountOf sz payload.length) payload.length
        (((framePackets fi k sz payload true).erase
            (.chunk (mkChunkPacket fi sz payload i1))).erase
          (.chunk (mkChunkPacket fi sz payload i2))) = none) ∧
    (∀ j, j < chunkCountOf sz payload.length →
      receiveFrame k (chunkCountOf sz payload.length) payload.length
        (((framePackets fi k sz payload true).erase
            (.chunk (mkChunkPacket fi sz payload j))).erase
          (.parity (mkParityPacket fi k sz payload (j / k)))) = none) ∧
    (accountFrame s none).frames_dropped = s.frames_dropped + 1 ∧
    (∀ b : List Nat, (accountFrame s (some b)).frames_dropped = s.frames_dropped) := by
  refine ⟨fun g hg => ⟨framePackets_parity_filter fi k sz payload g hg, rfl⟩,
    fun p hp => receiveFrame_erase_one fi k sz payload hsz hk p hp,
    fun i1 i2 h1 h2 hne hgrp =>
      receiveFrame_two_chunks_lost fi k sz payload i1 i2 h1 h2 hne hgrp,
    fun j hj => receiveFrame_chunk_parity_lost fi k sz payload hk j hj,
    rfl, fun b => rfl⟩

/-- C2 witness: a 5-byte payload, 2-byte chunks (3 chunks), groups of 2:
group 0's parity is the XOR of chunks 0 and 1; dropping chunk 0 alone
recovers the payload; dropping chunks 0 and 1, or chunk 2 plus group 1's
parity, drops the frame and bumps `frames_dropped`. -/
theorem claim_C2_fec_witness :
    ((framePackets 0 2 2 [1, 2, 3, 4, 5] true).filter (isParityOf 0) =
      [.parity (mkParityPacket 0 2 2 [1, 2, 3, 4, 5] 0)]) ∧
    (receiveFrame 2 (chunkCountOf 2 ([1, 2, 3, 4, 5] : List Nat).length)
      ([1, 2, 3, 4, 5] : List Nat).length
      ((framePackets 0 2 2 [1, 2, 3, 4, 5] true).erase
        (.chunk (mkChunkPacket 0 2 [1, 2, 3, 4, 5] 0))) = some [1, 2, 3, 4, 5]) ∧
    (receiveFrame 2 (chunkCountOf 2 ([1, 2, 3, 4, 5] : List Nat).length)
      ([1, 2, 3, 4, 5] : List Nat).length
      (((framePackets 0 2 2 [1, 2, 3, 4, 5] true).erase
          (.chunk (mkChunkPacket 0 2 [1, 2, 3, 4, 5] 0))).erase
        (.chunk (mkChunkPacket 0 2 [1, 2, 3, 4, 5] 1))) = none) ∧
    (receiveFrame 2 (chunkCountOf 2 ([1, 2, 3, 4, 5] : List Nat).length)
      ([1, 2, 3, 4, 5] : List Nat).length
      (((framePackets 0 2 2 [1, 2, 3, 4, 5] true).erase
          (.chunk (mkChunkPacket 0 2 [1, 2, 3, 4, 5] 2))).erase
        (.parity (mkParityPacket 0 2 2 [1, 2, 3, 4, 5] 1))) = none) ∧
    (accountFrame ⟨4, 0, 99⟩ none).frames_dropped = 1 := by
  have h := claim_C2_fec 0 2 2 [1, 2, 3, 4, 5] ⟨4, 0, 99⟩ (by decide) (by decide)
  refine ⟨(h.1 0 (by decide)).1,
    h.2.1 (.chunk (mkChunkPacket 0 2 [1, 2, 3, 4, 5] 0)) (by decide),
    h.2.2.1 0 1 (by decide) (by decide) (by decide) (by decide),
    h.2.2.2.1 2 (by decide), h.2.2.2.2.1⟩

/-- C6: in a saved container, overwriting any single byte of frame `i`'s
stored payload region with a different byte value makes `get_frame i` on
the reopened file fail with `CorruptFrame` — the checksum over the stored
bytes is verified on the read. -/
theorem claim_C6_checksum_sensitivity (title creator : List Nat)
    (width height : Nat) (comp : Bool) (ca : Nat) (bufs : List (List Nat))
    (hmeta : title.length + creator.length + 16 < 2 ^ 32) (hca : ca < 2 ^ 64)
    (hw : width < 2 ^ 32) (hh : height < 2 ^ 32) (hN : bufs.length < 2 ^ 32)
    (hwh : width * height * 3 < 2 ^ 31)
    (hlen : ∀ b ∈ bufs, b.length = width * height * 3)
    (hbytes : ∀ b ∈ bufs, ∀ x ∈ b, x < 256)
    (i j v : Nat) (hi : i < bufs.length)
    (hj : j < (builtRecord comp bufs i).stored_length) (hv : v < 256)
    (hne : v ≠ (save (builtFile title creator width height comp ca bufs)).getD
      ((serializeHeader (builtFile title creator width height comp ca bufs)).length
        + (builtRecord comp bufs i).byte_offset + j) 0) :
    openFile ((save (builtFile title creator width height comp ca bufs)).set
        ((serializeHeader (builtFile title creator width height comp ca bufs)).length
          + (builtRecord comp bufs i).byte_offset + j) v) =
      .ok { builtFile title creator width height comp ca bufs with
        payload := (builtFile title creator width height comp ca bufs).payload.set
          ((builtRecord comp bufs i).byte_offset + j) v } ∧
    get_frame { builtFile title creator width height comp ca bufs with
        payload := (builtFile title creator width height comp ca bufs).payload.set
          ((builtRecord comp bufs i).byte_offset + j) v } i =
      .error .CorruptFrame := by
  set f := builtFile title creator width height comp ca bufs with hf
  set r := builtRecord comp bufs i with hr
  have hgd : bufs.getD i [] = bufs.get ⟨i, hi⟩ := by
    rw [List.getD_eq_getElem bufs [] hi]
    rfl
  set stored := compressBytes comp (bufs.get ⟨i, hi⟩) with hst
  have hrlen : r.stored_length = stored.length := by
    rw [hr, builtRecord, hgd]
  have hj' : j < stored.length := by rw [← hrlen]; exact hj
  -- the payload slice at this record is exactly the stored bytes
  have hmap : ((bufs.take i).map fun b => (compressBytes comp b).length).sum =
      (((bufs.map (compressBytes comp)).take i).map List.length).sum := by
    rw [← List.map_take, List.map_map]
    rfl
  have hL : i < (bufs.map (compressBytes comp)).length := by simpa using hi
  have hgetmap : (bufs.map (compressBytes comp)).get ⟨i, hL⟩ = stored := by
    simp [hst]
  have hslice : (f.payload.drop r.byte_offset).take stored.length = stored := by
    rw [hf, hr]
    show (((bufs.map (compressBytes comp)).flatten).drop
      (((bufs.take i).map fun b => (compressBytes comp b).length).sum)).take
        stored.length = stored
    rw [hmap, ← hgetmap]
    exact flatten_drop_take (bufs.map (compressBytes comp)) i hL
  -- part 1: the modified file reopens with only the payload byte changed
  have hsetfile : (save f).set
      ((serializeHeader f).length + r.byte_offset + j) v =
      serializeHeader f ++ f.payload.set (r.byte_offset + j) v := by
    rw [save, Nat.add_assoc, List.set_append_right _ _ (by omega)]
    congr 1
    congr 1
    omega
  have hbounds := builtFile_fileBounds title creator width height comp ca bufs
    hmeta hca hw hh hN hwh hlen hbytes
  have hpos := builtFile_indexPositional title creator width height comp ca bufs
  have hopen : openFile ((save f).set
      ((serializeHeader f).length + r.byte_offset + j) v) =
      .ok { f with payload := f.payload.set (r.byte_offset + j) v } := by
    rw [hsetfile]
    exact openFile_header f _ hbounds hpos
  refine ⟨hopen, ?_⟩
  -- part 2: get_frame on the corrupted container
  set g : SanchezFile := { f with payload := f.payload.set (r.byte_offset + j) v }
    with hg
  have hi' : i < g.index.length := by
    have : g.index = recordsFrom comp 0 0 bufs := rfl
    rw [this, recordsFrom_length]
    exact hi
  have hirec : g.index.get ⟨i, hi'⟩ = r := by
    rw [hr]
    exact builtFile_index_get title creator width height comp ca bufs i hi hi'
  rw [get_frame, dif_pos hi', hirec]
  -- the slice of the modified payload is the stored bytes with byte j set
  have hslice2 : (g.payload.drop r.byte_offset).take r.stored_length =
      stored.set j v := by
    have hdrop : (f.payload.set (r.byte_offset + j) v).drop r.byte_offset =
        (f.payload.drop r.byte_offset).set j v := by
      rw [List.drop_set]
      rw [if_neg (by omega)]
      congr 1
      omega
    show ((f.payload.set (r.byte_offset + j) v).drop r.byte_offset).take
      r.stored_length = stored.set j v
    rw [hdrop, List.set_take, hrlen, hslice]
  show (if crc32 ((g.payload.drop r.byte_offset).take r.stored_length) = r.checksum
      then decompressBytes g.config.compression_enabled
        ((g.payload.drop r.byte_offset).take r.stored_length) r.raw_length
      else Except.error SanchezError.CorruptFrame) =
    Except.error SanchezError.CorruptFrame
  rw [hslice2]
  -- the flipped byte differs from the original stored byte
  have hplen : r.byte_offset + stored.length ≤ f.payload.length := by
    have hsl := congrArg List.length hslice
    simp only [List.length_take, List.length_drop] at hsl
    omega
  have hpb : j < (f.payload.drop r.byte_offset).length := by
    simp only [List.length_drop]
    omega
  have hpj : r.byte_offset + j < f.payload.length := by omega
  have hjt : j < ((f.payload.drop r.byte_offset).take stored.length).length := by
    simp only [List.length_take]
    omega
  have hbyte : (save f).getD
      ((serializeHeader f).length + r.byte_offset + j) 0 =
      stored.getD j 0 := by
    rw [save, Nat.add_assoc,
      List.getD_append_right _ _ _ _ (by omega)]
    rw [show (serializeHeader f).length + (r.byte_offset + j) -
      (serializeHeader f).length = r.byte_offset + j by omega]
    have e1 : f.payload.getD (r.byte_offset + j) 0 =
        (f.payload.drop r.byte_offset).getD j 0 := by
      rw [List.getD_eq_getElem f.payload 0 hpj, List.getD_eq_getElem _ 0 hpb]
      rw [List.getElem_drop]
    have e2 : (f.payload.drop r.byte_offset).getD j 0 =
        ((f.payload.drop r.byte_offset).take stored.length).getD j 0 := by
      rw [List.getD_eq_getElem _ 0 hpb, List.getD_eq_getElem _ 0 hjt]
      rw [List.getElem_take]
    rw [e1, e2, hslice]
  have hnev : v ≠ stored.get ⟨j, hj'⟩ := by
    have hgg : stored.getD j 0 = stored.get ⟨j, hj'⟩ := by
      rw [List.getD_eq_getElem stored 0 hj']
      rfl
    rw [← hgg, ← hbyte]
    exact hne
  have hsb : ∀ x ∈ stored, x < 256 := by
    rw [hst]
    exact compressBytes_lt comp _ (hbytes _ (bufs.get_mem i hi))
  have hcrc : crc32 (stored.set j v) ≠ crc32 stored :=
    crc32_ne_of_set stored j v hj' hsb hv hnev
  have hck : r.checksum = crc32 stored := by
    rw [hr, builtRecord, hgd]
  rw [if_neg (by rw [hck]; exact hcrc)]

set_option maxRecDepth 100000 in
/-- C6 witness: overwriting the first stored byte of frame 0 of the demo
container (a 48 run-length count) with 5 makes `get_frame 0` on the
reopened file fail with `CorruptFrame`. -/
theorem claim_C6_checksum_sensitivity_witness :
    openFile ((save demoFile).set
        ((serializeHeader demoFile).length
          + (builtRecord true demoBufs 0).byte_offset + 0) 5) =
      .ok { demoFile with
        payload := demoFile.payload.set
          ((builtRecord true demoBufs 0).byte_offset + 0) 5 } ∧
    get_frame { demoFile with
        payload := demoFile.payload.set
          ((builtRecord true demoBufs 0).byte_offset + 0) 5 } 0 =
      .error .CorruptFrame :=
  claim_C6_checksum_sensitivity [84] [99] 4 4 true 0 demoBufs
    (by decide) (by decide) (by decide) (by decide) (by decide) (by decide)
    (by decide) (by decide) 0 0 5 (by decide) (by decide) (by decide)
    (by decide)

/-- C10: both `serve` and `receive` map the mode strings case-insensitively
to their `StreamMode`, and every other string to `TCP_UNICAST`. -/
theorem claim_C10_stream_modes (s : String) :
    (pyLower s = "tcp" →
      serveStreamMode s = .TCP_UNICAST ∧ receiveStreamMode s = .TCP_UNICAST) ∧
    (pyLower s = "udp" →
      serveStreamMode s = .UDP_UNICAST ∧ receiveStreamMode s = .UDP_UNICAST) ∧
    (pyLower s = "multicast" →
      serveStreamMode s = .UDP_MULTICAST ∧ receiveStreamMode s = .UDP_MULTICAST) ∧
    (pyLower s = "broadcast" →
      serveStreamMode s = .UDP_BROADCAST ∧ receiveStreamMode s = .UDP_BROADCAST) ∧
    (pyLower s ∉ (["tcp", "udp", "multicast", "broadcast"] : List String) →
      serveStreamMode s = .TCP_UNICAST ∧ receiveStreamMode s = .TCP_UNICAST) := by
  refine ⟨fun h => ?_, fun h => ?_, fun h => ?_, fun h => ?_, fun h => ?_⟩
  · constructor <;> simp [serveStreamMode, receiveStreamMode, h]
  · constructor <;> simp [serveStreamMode, receiveStreamMode, h]
  · constructor <;> simp [serveStreamMode, receiveStreamMode, h]
  · constructor <;> simp [serveStreamMode, receiveStreamMode, h]
  · simp only [List.mem_cons, List.mem_singleton, not_or] at h
    obtain ⟨h1, h2, h3, h4⟩ := h
    constructor <;>
      simp [serveStreamMode, receiveStreamMode, h1, h2, h3, h4]

/-- C10 witness: concrete mode strings, including mixed case and an unknown
string falling back to TCP. -/
theorem claim_C10_stream_modes_witness :
    (serveStreamMode "TCP" = .TCP_UNICAST ∧ receiveStreamMode "TCP" = .TCP_UNICAST) ∧
    (serveStreamMode "udp" = .UDP_UNICAST ∧ receiveStreamMode "udp" = .UDP_UNICAST) ∧
    (serveStreamMode "Multicast" = .UDP_MULTICAST ∧
      receiveStreamMode "Multicast" = .UDP_MULTICAST) ∧
    (serveStreamMode "broadcast" = .UDP_BROADCAST ∧
      receiveStreamMode "broadcast" = .UDP_BROADCAST) ∧
    (serveStreamMode "sideband" = .TCP_UNICAST ∧
      receiveStreamMode "sideband" = .TCP_UNICAST) := by
  refine ⟨(claim_C10_stream_modes "TCP").1 (by decide),
    (claim_C10_stream_modes "udp").2.1 (by decide),
    (claim_C10_stream_modes "Multicast").2.2.1 (by decide),
    (claim_C10_stream_modes "broadcast").2.2.2.1 (by decide),
    (claim_C10_stream_modes "sideband").2.2.2.2 (by decide)⟩

end Sanchez
